import Mathlib

/-!
Verification of the PNG icon generator
(`firefox-extension/icons/generate-icons-from-svg.py`).

The script builds RGBA pixel buffers (Python `bytearray`), draws filled
circles (opaque overwrite) and filled triangles (scanline fill with alpha
blending), and serialises the buffer as a PNG byte stream (signature,
IHDR / IDAT / IEND chunks, CRC-32 checksums, zlib-compressed scanlines).

Modelling conventions:
* a byte buffer is a `List ℕ` of byte values;
* Python slice assignment `buf[i:i+4] = seg` is modelled by splicing
  (`take i ++ seg ++ drop (i+4)`), which faithfully grows the list when the
  write reaches past the end — so "no out-of-bounds write" is exactly
  "the length is preserved";
* Python single-byte assignment `buf[i] = v` is likewise modelled by a
  splice, which appends when `i` is out of range (CPython would raise);
  the in-bounds theorems below show this branch is never taken;
* `zlib.compress` is external to the repository and is modelled as an
  abstract `compress : List ℕ → List ℕ` parameter; `zlib.crc32` is the
  standard CRC-32 algorithm and is implemented bit-for-bit;
* Python floats are IEEE-754 doubles; the alpha-blend arithmetic is
  modelled exactly by `flRound`, round-to-nearest-even at 53 significant
  bits over ℚ, applied after every arithmetic operation just as CPython
  rounds every float operation.
-/

/-- Python slice read `l[i:i+n]` (clamped at the end of the list). -/
def pyslice (l : List ℕ) (i n : ℕ) : List ℕ := (l.drop i).take n

/-- Python slice assignment `l[i:i+4] = seg` for `0 ≤ i`: the four bytes at
`i` are removed and `seg` is spliced in.  When `i + 4` reaches past the end
this changes the length of the list, exactly as in CPython. -/
def setSlice4 (l : List ℕ) (i : ℕ) (seg : List ℕ) : List ℕ :=
  l.take i ++ seg ++ l.drop (i + 4)

/-- Python single-byte assignment `l[i] = v`, modelled as a splice. -/
def setByte (l : List ℕ) (i : ℕ) (v : ℕ) : List ℕ :=
  l.take i ++ [v] ++ l.drop (i + 1)

theorem length_take_of_le {l : List ℕ} {i : ℕ} (h : i ≤ l.length) :
    (l.take i).length = i := by
  rw [List.length_take]
  omega

theorem length_setSlice4 (l seg : List ℕ) (i : ℕ) (hi : i + 4 ≤ l.length)
    (hseg : seg.length = 4) : (setSlice4 l i seg).length = l.length := by
  simp only [setSlice4, List.length_append, List.length_take, List.length_drop, hseg]
  omega

theorem length_setByte (l : List ℕ) (i v : ℕ) (hi : i < l.length) :
    (setByte l i v).length = l.length := by
  simp only [setByte, List.length_append, List.length_take, List.length_drop,
    List.length_cons, List.length_nil]
  omega

theorem getD_take {l : List ℕ} {n i : ℕ} (h : i < n) :
    (l.take n).getD i 0 = l.getD i 0 := by
  simp [List.getD_eq_getElem?_getD, List.getElem?_take, h]

theorem getD_drop (l : List ℕ) (n i : ℕ) :
    (l.drop n).getD i 0 = l.getD (n + i) 0 := by
  simp [List.getD_eq_getElem?_getD, List.getElem?_drop]

theorem getD_setByte (l : List ℕ) (i v j : ℕ) (hi : i < l.length) :
    (setByte l i v).getD j 0 = if j = i then v else l.getD j 0 := by
  have hT : (l.take i).length = i := length_take_of_le (le_of_lt hi)
  unfold setByte
  rcases lt_trichotomy j i with hji | hji | hji
  · rw [if_neg (by omega)]
    rw [List.getD_append _ _ _ _ (by simp [List.length_append, hT]; omega)]
    rw [List.getD_append _ _ _ _ (by omega)]
    exact getD_take hji
  · rw [if_pos hji]
    subst hji
    rw [List.getD_append _ _ _ _ (by simp [List.length_append, hT])]
    rw [List.getD_append_right _ _ _ _ (by omega)]
    simp [hT]
  · rw [if_neg (by omega)]
    rw [List.getD_append_right _ _ _ _ (by simp [List.length_append, hT]; omega)]
    rw [getD_drop]
    congr 1
    simp only [List.length_append, hT, List.length_cons, List.length_nil]
    omega

theorem getD_setSlice4 (l seg : List ℕ) (i j : ℕ) (hi : i + 4 ≤ l.length)
    (hseg : seg.length = 4) :
    (setSlice4 l i seg).getD j 0 =
      if i ≤ j ∧ j < i + 4 then seg.getD (j - i) 0 else l.getD j 0 := by
  have hT : (l.take i).length = i := length_take_of_le (by omega)
  unfold setSlice4
  rcases lt_trichotomy j i with hji | hji | hji
  · rw [if_neg (by omega)]
    rw [List.getD_append _ _ _ _ (by simp [List.length_append, hT, hseg]; omega)]
    rw [List.getD_append _ _ _ _ (by omega)]
    exact getD_take hji
  · rw [if_pos (by omega)]
    subst hji
    rw [List.getD_append _ _ _ _ (by simp [List.length_append, hT, hseg])]
    rw [List.getD_append_right _ _ _ _ (by omega)]
    rw [hT]
  · by_cases hj4 : j < i + 4
    · rw [if_pos (by omega)]
      rw [List.getD_append _ _ _ _ (by simp [List.length_append, hT, hseg]; omega)]
      rw [List.getD_append_right _ _ _ _ (by omega)]
      rw [hT]
    · rw [if_neg (by omega)]
      rw [List.getD_append_right _ _ _ _ (by simp [List.length_append, hT, hseg]; omega)]
      rw [getD_drop]
      congr 1
      simp only [List.length_append, hT, hseg]
      omega

/-- Flat index of the first byte of pixel `(x, y)` in a `w × h` RGBA buffer:
`(y * w + x) * 4`, as computed by the source. -/
def pixIdx (w x y : ℕ) : ℕ := (y * w + x) * 4

/-- The four bytes of pixel `(x, y)`, read the way the source reads
`pixels[idx:idx+4]`. -/
def getPix (l : List ℕ) (w x y : ℕ) : List ℕ := pyslice l (pixIdx w x y) 4

theorem rowcol_inj {w x y x₂ y₂ : ℕ} (hx : x < w) (hx₂ : x₂ < w)
    (h : y * w + x = y₂ * w + x₂) : x = x₂ ∧ y = y₂ := by
  rcases lt_trichotomy y y₂ with hy | hy | hy
  · exfalso
    have h1 : y * w + w ≤ y₂ * w := by
      have := Nat.mul_le_mul_right w (Nat.succ_le_of_lt hy)
      simpa [Nat.succ_mul] using this
    omega
  · subst hy
    exact ⟨by omega, rfl⟩
  · exfalso
    have h1 : y₂ * w + w ≤ y * w := by
      have := Nat.mul_le_mul_right w (Nat.succ_le_of_lt hy)
      simpa [Nat.succ_mul] using this
    omega

theorem pixIdx_add4_le {w h x y : ℕ} (hx : x < w) (hy : y < h) :
    pixIdx w x y + 4 ≤ w * h * 4 := by
  unfold pixIdx
  have h1 : y * w + x + 1 ≤ h * w := by
    have h2 : (y + 1) * w ≤ h * w := Nat.mul_le_mul_right w (Nat.succ_le_of_lt hy)
    have h3 : y * w + w = (y + 1) * w := by ring
    omega
  have h4 : h * w = w * h := Nat.mul_comm h w
  omega

theorem length_pyslice4 (l : List ℕ) (i : ℕ) (hi : i + 4 ≤ l.length) :
    (pyslice l i 4).length = 4 := by
  simp only [pyslice, List.length_take, List.length_drop]
  omega

theorem getD_pyslice (l : List ℕ) (i k : ℕ) (hk : k < 4) :
    (pyslice l i 4).getD k 0 = l.getD (i + k) 0 := by
  unfold pyslice
  rw [getD_take hk, getD_drop]

theorem eq_of_len4_getD {l₁ l₂ : List ℕ} (h₁ : l₁.length = 4) (h₂ : l₂.length = 4)
    (h : ∀ k, k < 4 → l₁.getD k 0 = l₂.getD k 0) : l₁ = l₂ := by
  rcases l₁ with _ | ⟨a₀, _ | ⟨a₁, _ | ⟨a₂, _ | ⟨a₃, _ | ⟨a₄, t⟩⟩⟩⟩⟩ <;>
    simp only [List.length_nil, List.length_cons] at h₁ <;> try omega
  rcases l₂ with _ | ⟨b₀, _ | ⟨b₁, _ | ⟨b₂, _ | ⟨b₃, _ | ⟨b₄, t⟩⟩⟩⟩⟩ <;>
    simp only [List.length_nil, List.length_cons] at h₂ <;> try omega
  have e0 := h 0 (by omega)
  have e1 := h 1 (by omega)
  have e2 := h 2 (by omega)
  have e3 := h 3 (by omega)
  simp only [List.getD_cons_zero, List.getD_cons_succ] at e0 e1 e2 e3
  simp [e0, e1, e2, e3]

theorem length_getPix {l : List ℕ} {w h x y : ℕ} (hlen : l.length = w * h * 4)
    (hx : x < w) (hy : y < h) : (getPix l w x y).length = 4 :=
  length_pyslice4 l _ (by rw [hlen]; exact pixIdx_add4_le hx hy)

theorem pixIdx_cases {w x y x₂ y₂ : ℕ} (hx : x < w) (hx₂ : x₂ < w) :
    (pixIdx w x y = pixIdx w x₂ y₂ ∧ x = x₂ ∧ y = y₂) ∨
      pixIdx w x y + 4 ≤ pixIdx w x₂ y₂ ∨ pixIdx w x₂ y₂ + 4 ≤ pixIdx w x y := by
  rcases lt_trichotomy (y * w + x) (y₂ * w + x₂) with hc | hc | hc
  · right; left
    unfold pixIdx
    omega
  · left
    have := rowcol_inj hx hx₂ hc
    exact ⟨by unfold pixIdx; omega, this⟩
  · right; right
    unfold pixIdx
    omega

theorem getPix_setSlice4 {l seg : List ℕ} {w h x y x₂ y₂ : ℕ}
    (hlen : l.length = w * h * 4) (hseg : seg.length = 4)
    (hx : x < w) (hy : y < h) (hx₂ : x₂ < w) (hy₂ : y₂ < h) :
    getPix (setSlice4 l (pixIdx w x y) seg) w x₂ y₂ =
      if x₂ = x ∧ y₂ = y then seg else getPix l w x₂ y₂ := by
  have hi : pixIdx w x y + 4 ≤ l.length := by rw [hlen]; exact pixIdx_add4_le hx hy
  have hi₂ : pixIdx w x₂ y₂ + 4 ≤ l.length := by rw [hlen]; exact pixIdx_add4_le hx₂ hy₂
  have hlen2 : (setSlice4 l (pixIdx w x y) seg).length = l.length :=
    length_setSlice4 l seg _ hi hseg
  rcases pixIdx_cases (w := w) hx hx₂ with ⟨hie, hxe, hye⟩ | hd | hd
  · rw [if_pos ⟨hxe.symm, hye.symm⟩]
    apply eq_of_len4_getD
    · rw [length_getPix (hlen2.trans hlen) hx₂ hy₂]
    · exact hseg
    · intro k hk
      simp only [getPix]
      rw [getD_pyslice _ _ _ hk, ← hie,
        getD_setSlice4 _ _ _ _ hi hseg, if_pos (by omega)]
      congr 1
      omega
  · rw [if_neg (by rintro ⟨rfl, rfl⟩; omega)]
    apply eq_of_len4_getD
    · rw [length_getPix (hlen2.trans hlen) hx₂ hy₂]
    · exact length_getPix hlen hx₂ hy₂
    · intro k hk
      simp only [getPix]
      rw [getD_pyslice _ _ _ hk, getD_pyslice _ _ _ hk,
        getD_setSlice4 _ _ _ _ hi hseg, if_neg (by omega)]
  · rw [if_neg (by rintro ⟨rfl, rfl⟩; omega)]
    apply eq_of_len4_getD
    · rw [length_getPix (hlen2.trans hlen) hx₂ hy₂]
    · exact length_getPix hlen hx₂ hy₂
    · intro k hk
      simp only [getPix]
      rw [getD_pyslice _ _ _ hk, getD_pyslice _ _ _ hk,
        getD_setSlice4 _ _ _ _ hi hseg, if_neg (by omega)]

/-! ### The PNG encoder (`create_png`) -/

/-- Big-endian 4-byte encoding, `struct.pack('>I', v)` for `v < 2^32`. -/
def be32 (v : ℕ) : List ℕ :=
  [v / 2 ^ 24 % 256, v / 2 ^ 16 % 256, v / 2 ^ 8 % 256, v % 256]

/-- One shift step of the reflected CRC-32 with polynomial `0xEDB88320`. -/
def crcStep (c : ℕ) : ℕ :=
  if c % 2 = 1 then Nat.xor (c / 2) 0xEDB88320 else c / 2

/-- Absorb one byte into a CRC-32 state: xor it in, then shift eight times. -/
def crcByte (c b : ℕ) : ℕ := crcStep^[8] (Nat.xor c b)

/-- The CRC-32 checksum exactly as computed by `zlib.crc32`: initial value
`0xFFFFFFFF`, reflected polynomial `0xEDB88320`, final xor `0xFFFFFFFF`. -/
def crc32 (data : List ℕ) : ℕ :=
  Nat.xor (data.foldl crcByte 0xFFFFFFFF) 0xFFFFFFFF

/-- The 8-byte PNG signature `b'\x89PNG\r\n\x1a\n'`. -/
def pngSignature : List ℕ := [0x89, 0x50, 0x4E, 0x47, 0x0D, 0x0A, 0x1A, 0x0A]

/-- ASCII bytes of the chunk tag `"IHDR"`. -/
def tagIHDR : List ℕ := [0x49, 0x48, 0x44, 0x52]

/-- ASCII bytes of the chunk tag `"IDAT"`. -/
def tagIDAT : List ℕ := [0x49, 0x44, 0x41, 0x54]

/-- ASCII bytes of the chunk tag `"IEND"`. -/
def tagIEND : List ℕ := [0x49, 0x45, 0x4E, 0x44]

/-- The 13-byte IHDR payload, `struct.pack('>IIBBBBB', width, height, 8, 6, 0, 0, 0)`:
width and height big-endian, bit depth 8, color type 6 (RGBA),
compression 0, filter 0, interlace 0. -/
def ihdrData (width height : ℕ) : List ℕ :=
  be32 width ++ be32 height ++ [8, 6, 0, 0, 0]

/-- One scanline's pixel bytes as gathered by the inner loop of `create_png`:
the slices `pixels[(y*width+x)*4 : ...+4]` for `x = 0 .. width-1`, appended
in order. -/
def rowBytes (pixels : List ℕ) (width y : ℕ) : List ℕ :=
  (List.range width).foldl (fun a x => a ++ pyslice pixels ((y * width + x) * 4) 4) []

/-- The raw (pre-compression) IDAT bytes built by `create_png`: for each row a
filter-type byte `0` followed by that row's pixel bytes. -/
def rawData (pixels : List ℕ) (width height : ℕ) : List ℕ :=
  (List.range height).foldl (fun a y => a ++ (0 :: rowBytes pixels width y)) []

/-- The byte stream assembled by `create_png`, with `zlib.compress` abstracted
as the `compress` parameter.  Mirrors the source line by line: signature, the
IHDR chunk with hard-coded length 13, the IDAT chunk over the compressed
scanlines, and the zero-length IEND chunk, each with its CRC-32 over
(tag ++ payload). -/
def create_png (compress : List ℕ → List ℕ) (width height : ℕ)
    (pixels : List ℕ) : List ℕ :=
  let ihdr_data := ihdrData width height
  let ihdr_crc := crc32 (tagIHDR ++ ihdr_data)
  let ihdr_chunk := be32 13 ++ tagIHDR ++ ihdr_data ++ be32 ihdr_crc
  let compressed := compress (rawData pixels width height)
  let idat_crc := crc32 (tagIDAT ++ compressed)
  let idat_chunk := be32 compressed.length ++ tagIDAT ++ compressed ++ be32 idat_crc
  let iend_crc := crc32 tagIEND
  let iend_chunk := be32 0 ++ tagIEND ++ be32 iend_crc
  pngSignature ++ ihdr_chunk ++ idat_chunk ++ iend_chunk

/-- Specification-side chunk layout (spec.md §4.2): 4-byte big-endian payload
length, 4-byte ASCII tag, payload, then a 4-byte big-endian CRC-32 computed
over tag ++ payload. -/
def pngChunk (tag payload : List ℕ) : List ℕ :=
  be32 payload.length ++ tag ++ payload ++ be32 (crc32 (tag ++ payload))

/-- Specification-side scanline serialisation: the rows of the image in order,
each prefixed with the filter-type byte 0, where row `y` is the contiguous
slice `pixels[y*width*4 : (y+1)*width*4]`. -/
def specScanlines (pixels : List ℕ) (width height : ℕ) : List ℕ :=
  ((List.range height).map (fun y => 0 :: pyslice pixels (y * width * 4) (width * 4))).flatten

theorem pyslice_append_pyslice (l : List ℕ) (i a b : ℕ) :
    pyslice l i a ++ pyslice l (i + a) b = pyslice l i (a + b) := by
  unfold pyslice
  rw [← List.drop_drop]
  exact (List.take_add _ _ _).symm

theorem rowBytes_eq_slice (pixels : List ℕ) (width y : ℕ) :
    rowBytes pixels width y = pyslice pixels (y * width * 4) (width * 4) := by
  suffices hgen : ∀ k : ℕ,
      (List.range k).foldl (fun a x => a ++ pyslice pixels ((y * width + x) * 4) 4) [] =
        pyslice pixels (y * width * 4) (k * 4) by
    exact hgen width
  intro k
  induction k with
  | zero => simp [pyslice]
  | succ n ih =>
    rw [List.range_succ, List.foldl_append, ih]
    simp only [List.foldl_cons, List.foldl_nil]
    have harith : (y * width + n) * 4 = y * width * 4 + n * 4 := by ring
    rw [harith, pyslice_append_pyslice]
    congr 1
    ring

theorem rawData_eq_specScanlines (pixels : List ℕ) (width height : ℕ) :
    rawData pixels width height = specScanlines pixels width height := by
  unfold rawData specScanlines
  induction height with
  | zero => simp
  | succ n ih =>
    rw [List.range_succ, List.foldl_append, List.map_append, List.flatten_append, ih]
    simp [rowBytes_eq_slice]

theorem length_ihdrData (width height : ℕ) : (ihdrData width height).length = 13 := by
  simp [ihdrData, be32]

theorem create_png_eq_chunks (compress : List ℕ → List ℕ) (width height : ℕ)
    (pixels : List ℕ) :
    create_png compress width height pixels =
      pngSignature ++ pngChunk tagIHDR (ihdrData width height) ++
        pngChunk tagIDAT (compress (rawData pixels width height)) ++
        pngChunk tagIEND [] := by
  unfold create_png pngChunk
  rw [length_ihdrData]
  simp [tagIHDR, tagIDAT, tagIEND]

/-! ### Integer ranges (Python `range(lo, hi)`) -/

/-- Helper for `intRange`: `n` consecutive integers starting at `lo`. -/
def intRangeAux : ℕ → ℤ → List ℤ
  | 0, _ => []
  | n + 1, lo => lo :: intRangeAux n (lo + 1)

/-- Python `range(lo, hi)` over integers. -/
def intRange (lo hi : ℤ) : List ℤ := intRangeAux (hi - lo).toNat lo

theorem mem_intRangeAux {n : ℕ} {lo z : ℤ} :
    z ∈ intRangeAux n lo ↔ lo ≤ z ∧ z < lo + n := by
  induction n generalizing lo with
  | zero => simp [intRangeAux]
  | succ m ih =>
    simp only [intRangeAux, List.mem_cons, ih]
    constructor
    · rintro (rfl | ⟨h1, h2⟩)
      · constructor <;> omega
      · constructor <;> omega
    · rintro ⟨h1, h2⟩
      rcases eq_or_lt_of_le h1 with rfl | hlt
      · exact Or.inl rfl
      · exact Or.inr ⟨by omega, by omega⟩

theorem mem_intRange {lo hi z : ℤ} : z ∈ intRange lo hi ↔ lo ≤ z ∧ z < hi := by
  unfold intRange
  rw [mem_intRangeAux]
  omega

theorem nodup_intRangeAux (n : ℕ) (lo : ℤ) : (intRangeAux n lo).Nodup := by
  induction n generalizing lo with
  | zero => simp [intRangeAux]
  | succ m ih =>
    simp only [intRangeAux, List.nodup_cons]
    refine ⟨fun hmem => ?_, ih (lo + 1)⟩
    rw [mem_intRangeAux] at hmem
    omega

theorem nodup_intRange (lo hi : ℤ) : (intRange lo hi).Nodup :=
  nodup_intRangeAux _ _

/-! ### The circle rasteriser (`draw_circle`) -/

/-- Body of the inner loop of `draw_circle`: for a given `y` and loop variable
`x`, test `dx*dx + dy*dy <= radius*radius` and overwrite the pixel with
`color` via slice assignment. -/
def circleStep (width : ℕ) (cx cy radius : ℤ) (color : List ℕ) (y : ℤ)
    (px : List ℕ) (x : ℤ) : List ℕ :=
  if (x - cx) * (x - cx) + (y - cy) * (y - cy) ≤ radius * radius then
    setSlice4 px (pixIdx width x.toNat y.toNat) color
  else px

/-- One iteration of the outer loop of `draw_circle`: run the inner `x` loop
`range(max(0, cx - radius), min(width, cx + radius + 1))` at scanline `y`. -/
def circleRow (width : ℕ) (cx cy radius : ℤ) (color : List ℕ)
    (px : List ℕ) (y : ℤ) : List ℕ :=
  (intRange (max 0 (cx - radius)) (min (width : ℤ) (cx + radius + 1))).foldl
    (circleStep width cx cy radius color y) px

/-- `draw_circle(pixels, width, height, cx, cy, radius, color)` from the
source: loop `y` over `range(max(0, cy - radius), min(height, cy + radius + 1))`,
`x` over the analogous horizontal range, and overwrite every pixel whose
squared distance from `(cx, cy)` is at most `radius²`.  The loop bounds make
`x` and `y` non-negative, so `Int.toNat` in `circleStep` is exact. -/
def draw_circle (pixels : List ℕ) (width height : ℕ) (cx cy radius : ℤ)
    (color : List ℕ) : List ℕ :=
  (intRange (max 0 (cy - radius)) (min (height : ℤ) (cy + radius + 1))).foldl
    (circleRow width cx cy radius color) pixels

/-- Squared-distance membership test of the source's inner conditional. -/
def inDisk (cx cy radius x y : ℤ) : Prop :=
  (x - cx) * (x - cx) + (y - cy) * (y - cy) ≤ radius * radius

instance (cx cy radius x y : ℤ) : Decidable (inDisk cx cy radius x y) := by
  unfold inDisk
  infer_instance

theorem circleStep_length {width h : ℕ} {cx cy radius : ℤ} {color : List ℕ}
    {y : ℤ} {px : List ℕ} {x : ℤ}
    (hlen : px.length = width * h * 4) (hcol : color.length = 4)
    (hx : 0 ≤ x ∧ x < width) (hy : 0 ≤ y ∧ y < h) :
    (circleStep width cx cy radius color y px x).length = width * h * 4 := by
  unfold circleStep
  split
  · rw [length_setSlice4 _ _ _ _ hcol, hlen]
    rw [hlen]
    exact pixIdx_add4_le (by omega) (by omega)
  · exact hlen

theorem circleInner_length {width h : ℕ} {cx cy radius : ℤ} {color : List ℕ}
    {y : ℤ} (hcol : color.length = 4) (hy : 0 ≤ y ∧ y < h) :
    ∀ (xs : List ℤ) (px : List ℕ), px.length = width * h * 4 →
      (∀ x ∈ xs, 0 ≤ x ∧ x < width) →
      (xs.foldl (circleStep width cx cy radius color y) px).length = width * h * 4 := by
  intro xs
  induction xs with
  | nil => intro px hlen _; exact hlen
  | cons a xs ih =>
    intro px hlen hxs
    simp only [List.foldl_cons]
    exact ih _ (circleStep_length hlen hcol (hxs a (List.mem_cons_self a xs)) hy)
      (fun x hx => hxs x (List.mem_cons_of_mem a hx))

theorem circleStep_getPix {width h : ℕ} {cx cy radius : ℤ} {color : List ℕ}
    {y : ℤ} {px : List ℕ} {x : ℤ} {x₂ y₂ : ℕ}
    (hlen : px.length = width * h * 4) (hcol : color.length = 4)
    (hx : 0 ≤ x ∧ x < width) (hy : 0 ≤ y ∧ y < h)
    (hx₂ : x₂ < width) (hy₂ : y₂ < h) :
    getPix (circleStep width cx cy radius color y px x) width x₂ y₂ =
      if (x₂ : ℤ) = x ∧ (y₂ : ℤ) = y ∧ inDisk cx cy radius x y then color
      else getPix px width x₂ y₂ := by
  unfold circleStep inDisk
  by_cases hcond : (x - cx) * (x - cx) + (y - cy) * (y - cy) ≤ radius * radius
  · rw [if_pos hcond]
    rw [getPix_setSlice4 (h := h) hlen hcol (by omega) (by omega) hx₂ hy₂]
    by_cases heq : (x₂ : ℤ) = x ∧ (y₂ : ℤ) = y
    · rw [if_pos ⟨by omega, by omega⟩, if_pos ⟨heq.1, heq.2, hcond⟩]
    · rw [if_neg (by omega), if_neg (by tauto)]
  · rw [if_neg hcond, if_neg (by tauto)]

theorem circleInner_getPix {width h : ℕ} {cx cy radius : ℤ} {color : List ℕ}
    {y : ℤ} (hcol : color.length = 4) (hy : 0 ≤ y ∧ y < h) {x₂ y₂ : ℕ}
    (hx₂ : x₂ < width) (hy₂ : y₂ < h) :
    ∀ (xs : List ℤ) (px : List ℕ), px.length = width * h * 4 →
      (∀ x ∈ xs, 0 ≤ x ∧ x < width) →
      getPix (xs.foldl (circleStep width cx cy radius color y) px) width x₂ y₂ =
        if (x₂ : ℤ) ∈ xs ∧ (y₂ : ℤ) = y ∧ inDisk cx cy radius x₂ y then color
        else getPix px width x₂ y₂ := by
  intro xs
  induction xs with
  | nil => intro px hlen _; simp
  | cons a xs ih =>
    intro px hlen hxs
    simp only [List.foldl_cons]
    rw [ih _ (circleStep_length hlen hcol (hxs a (List.mem_cons_self a xs)) hy)
      (fun x hx => hxs x (List.mem_cons_of_mem a hx))]
    rw [circleStep_getPix hlen hcol (hxs a (List.mem_cons_self a xs)) hy hx₂ hy₂]
    by_cases hmem : (x₂ : ℤ) ∈ xs ∧ (y₂ : ℤ) = y ∧ inDisk cx cy radius x₂ y
    · rw [if_pos hmem, if_pos ⟨List.mem_cons_of_mem a hmem.1, hmem.2⟩]
    · rw [if_neg hmem]
      by_cases hhead : (x₂ : ℤ) = a ∧ (y₂ : ℤ) = y ∧ inDisk cx cy radius a y
      · rw [if_pos hhead]
        rw [if_pos ⟨by rw [hhead.1]; exact List.mem_cons_self a xs,
          hhead.2.1, by rw [hhead.1]; exact hhead.2.2⟩]
      · rw [if_neg hhead]
        rw [if_neg (by
          rintro ⟨hmem2, hy2, hdisk⟩
          rcases List.mem_cons.mp hmem2 with heq | hmem3
          · exact hhead ⟨heq, hy2, heq ▸ hdisk⟩
          · exact hmem ⟨hmem3, hy2, hdisk⟩)]

theorem circleRow_length {width h : ℕ} {cx cy radius : ℤ} {color : List ℕ}
    {px : List ℕ} {y : ℤ} (hlen : px.length = width * h * 4)
    (hcol : color.length = 4) (hy : 0 ≤ y ∧ y < h) :
    (circleRow width cx cy radius color px y).length = width * h * 4 := by
  unfold circleRow
  exact circleInner_length hcol hy _ px hlen
    (fun x hx => by rw [mem_intRange] at hx; omega)

theorem circleRow_getPix {width h : ℕ} {cx cy radius : ℤ} {color : List ℕ}
    {px : List ℕ} {y : ℤ} {x₂ y₂ : ℕ}
    (hlen : px.length = width * h * 4) (hcol : color.length = 4)
    (hy : 0 ≤ y ∧ y < h) (hx₂ : x₂ < width) (hy₂ : y₂ < h) :
    getPix (circleRow width cx cy radius color px y) width x₂ y₂ =
      if max 0 (cx - radius) ≤ (x₂ : ℤ) ∧ (x₂ : ℤ) < min (width : ℤ) (cx + radius + 1) ∧
          (y₂ : ℤ) = y ∧ inDisk cx cy radius x₂ y then color
      else getPix px width x₂ y₂ := by
  unfold circleRow
  rw [circleInner_getPix hcol hy hx₂ hy₂ _ px hlen
    (fun x hx => by rw [mem_intRange] at hx; omega)]
  by_cases hmem : (x₂ : ℤ) ∈ intRange (max 0 (cx - radius)) (min (width : ℤ) (cx + radius + 1))
  · rw [mem_intRange] at hmem
    by_cases hrest : (y₂ : ℤ) = y ∧ inDisk cx cy radius x₂ y
    · rw [if_pos ⟨by rw [mem_intRange]; omega, hrest⟩, if_pos ⟨hmem.1, hmem.2, hrest⟩]
    · rw [if_neg (by tauto), if_neg (by tauto)]
  · rw [mem_intRange] at hmem
    rw [if_neg (by rw [mem_intRange]; tauto), if_neg (by tauto)]

theorem circleOuter_getPix {width h : ℕ} {cx cy radius : ℤ} {color : List ℕ}
    (hcol : color.length = 4) {x₂ y₂ : ℕ} (hx₂ : x₂ < width) (hy₂ : y₂ < h) :
    ∀ (ys : List ℤ) (px : List ℕ), px.length = width * h * 4 →
      (∀ y ∈ ys, 0 ≤ y ∧ y < h) →
      getPix (ys.foldl (circleRow width cx cy radius color) px) width x₂ y₂ =
        if (y₂ : ℤ) ∈ ys ∧ max 0 (cx - radius) ≤ (x₂ : ℤ) ∧
            (x₂ : ℤ) < min (width : ℤ) (cx + radius + 1) ∧
            inDisk cx cy radius x₂ y₂ then color
        else getPix px width x₂ y₂ := by
  intro ys
  induction ys with
  | nil => intro px hlen _; simp
  | cons a ys ih =>
    intro px hlen hys
    simp only [List.foldl_cons]
    rw [ih _ (circleRow_length hlen hcol (hys a (List.mem_cons_self a ys)))
      (fun y hy => hys y (List.mem_cons_of_mem a hy))]
    rw [circleRow_getPix hlen hcol (hys a (List.mem_cons_self a ys)) hx₂ hy₂]
    by_cases hmem : (y₂ : ℤ) ∈ ys ∧ max 0 (cx - radius) ≤ (x₂ : ℤ) ∧
        (x₂ : ℤ) < min (width : ℤ) (cx + radius + 1) ∧ inDisk cx cy radius x₂ y₂
    · rw [if_pos hmem, if_pos ⟨List.mem_cons_of_mem a hmem.1, hmem.2⟩]
    · rw [if_neg hmem]
      by_cases hhead : max 0 (cx - radius) ≤ (x₂ : ℤ) ∧
          (x₂ : ℤ) < min (width : ℤ) (cx + radius + 1) ∧ (y₂ : ℤ) = a ∧
          inDisk cx cy radius x₂ a
      · rw [if_pos hhead]
        rw [if_pos ⟨by rw [hhead.2.2.1]; exact List.mem_cons_self a ys,
          hhead.1, hhead.2.1, by rw [hhead.2.2.1]; exact hhead.2.2.2⟩]
      · rw [if_neg hhead]
        rw [if_neg (by
          rintro ⟨hmem2, hc1, hc2, hdisk⟩
          rcases List.mem_cons.mp hmem2 with heq | hmem3
          · exact hhead ⟨hc1, hc2, heq, heq ▸ hdisk⟩
          · exact hmem ⟨hmem3, hc1, hc2, hdisk⟩)]

theorem draw_circle_length {pixels : List ℕ} {width height : ℕ}
    {cx cy radius : ℤ} {color : List ℕ}
    (hlen : pixels.length = width * height * 4) (hcol : color.length = 4) :
    (draw_circle pixels width height cx cy radius color).length =
      width * height * 4 := by
  unfold draw_circle
  suffices hgen : ∀ (ys : List ℤ) (px : List ℕ), px.length = width * height * 4 →
      (∀ y ∈ ys, 0 ≤ y ∧ y < height) →
      (ys.foldl (circleRow width cx cy radius color) px).length =
        width * height * 4 by
    exact hgen _ pixels hlen (fun y hy => by rw [mem_intRange] at hy; omega)
  intro ys
  induction ys with
  | nil => intro px hlen2 _; exact hlen2
  | cons a ys ih =>
    intro px hlen2 hys
    simp only [List.foldl_cons]
    exact ih _ (circleRow_length hlen2 hcol (hys a (List.mem_cons_self a ys)))
      (fun y hy => hys y (List.mem_cons_of_mem a hy))

theorem draw_circle_getPix {pixels : List ℕ} {width height : ℕ}
    {cx cy radius : ℤ} {color : List ℕ} {x y : ℕ}
    (hlen : pixels.length = width * height * 4) (hcol : color.length = 4)
    (hr : 0 ≤ radius) (hx : x < width) (hy : y < height) :
    getPix (draw_circle pixels width height cx cy radius color) width x y =
      if inDisk cx cy radius x y then color else getPix pixels width x y := by
  unfold draw_circle
  rw [circleOuter_getPix hcol hx hy _ pixels hlen
    (fun z hz => by rw [mem_intRange] at hz; omega)]
  by_cases hd : inDisk cx cy radius x y
  · have hxb : cx - radius ≤ (x : ℤ) ∧ (x : ℤ) ≤ cx + radius := by
      unfold inDisk at hd
      constructor <;> nlinarith [sq_nonneg ((y : ℤ) - cy), sq_nonneg ((x : ℤ) - cx)]
    have hyb : cy - radius ≤ (y : ℤ) ∧ (y : ℤ) ≤ cy + radius := by
      unfold inDisk at hd
      constructor <;> nlinarith [sq_nonneg ((y : ℤ) - cy), sq_nonneg ((x : ℤ) - cx)]
    rw [if_pos hd, if_pos ?_]
    refine ⟨by rw [mem_intRange]; omega, by omega, by omega, hd⟩
  · rw [if_neg hd, if_neg (by tauto)]

/-! ### IEEE-754 double rounding over ℚ

CPython evaluates the alpha-blend expressions with IEEE-754 doubles, and
every arithmetic operation is correctly rounded.  `flRound q` is the value
of the double nearest to `q` (round half to even, 53 significant bits),
expressed exactly as a rational.  Exponents stay far inside the normal
range for all quantities the generator manipulates, so underflow and
overflow never arise. -/

/-- Round a rational to the nearest integer, halves to even. -/
def rhe (q : ℚ) : ℤ :=
  if q - ⌊q⌋ < 1 / 2 then ⌊q⌋
  else if 1 / 2 < q - ⌊q⌋ then ⌊q⌋ + 1
  else if ⌊q⌋ % 2 = 0 then ⌊q⌋ else ⌊q⌋ + 1

/-- Binary exponent `⌊log₂ q⌋` of a positive rational, from the bit lengths
of numerator and denominator. -/
def ratExp (q : ℚ) : ℤ :=
  let a := Nat.log2 q.num.toNat
  let b := Nat.log2 q.den
  if q.den * 2 ^ a ≤ q.num.toNat * 2 ^ b then (a : ℤ) - b else (a : ℤ) - b - 1

/-- Nearest double to a positive rational: scale into `[2^52, 2^53)`,
round to an integer significand, scale back. -/
def flPos (q : ℚ) : ℚ :=
  (rhe (q * 2 ^ ((52 : ℤ) - ratExp q)) : ℚ) * 2 ^ (ratExp q - 52)

/-- Nearest IEEE-754 double to a rational (round half to even),
as an exact rational. -/
def flRound (q : ℚ) : ℚ :=
  if q = 0 then 0 else if 0 < q then flPos q else -flPos (-q)

/-- Python `int(f)`: truncation toward zero. -/
def qtrunc (q : ℚ) : ℤ := if q < 0 then -⌊-q⌋ else ⌊q⌋

theorem rhe_abs (q : ℚ) : |(rhe q : ℚ) - q| ≤ 1 / 2 := by
  have h1 : ((⌊q⌋ : ℤ) : ℚ) ≤ q := Int.floor_le q
  have h2 : q < ⌊q⌋ + 1 := Int.lt_floor_add_one q
  unfold rhe
  split_ifs <;> rw [abs_le] <;> constructor <;> push_cast <;> linarith

theorem rhe_intCast (m : ℤ) : rhe (m : ℚ) = m := by
  unfold rhe
  rw [Int.floor_intCast]
  rw [if_pos (by norm_num)]

theorem ratExp_spec {q : ℚ} (hq : 0 < q) :
    (2 : ℚ) ^ ratExp q ≤ q ∧ q < 2 ^ (ratExp q + 1) := by
  have hnum : 0 < q.num := Rat.num_pos.mpr hq
  have hden : 0 < q.den := q.pos
  set n : ℕ := q.num.toNat with hn
  set d : ℕ := q.den with hd
  have hn1 : 1 ≤ n := by omega
  have hd1 : 1 ≤ d := hden
  have hqnd : q = (n : ℚ) / (d : ℚ) := by
    have h1 : ((q.num.toNat : ℕ) : ℚ) = (q.num : ℚ) := by
      exact_mod_cast Int.toNat_of_nonneg (le_of_lt hnum)
    rw [hn, hd, h1]
    exact (Rat.num_div_den q).symm
  set a : ℕ := Nat.log2 n with ha
  set b : ℕ := Nat.log2 d with hb
  have hna : 2 ^ a ≤ n := Nat.log2_self_le (by omega)
  have hna2 : n < 2 ^ (a + 1) := Nat.lt_log2_self
  have hdb : 2 ^ b ≤ d := Nat.log2_self_le (by omega)
  have hdb2 : d < 2 ^ (b + 1) := Nat.lt_log2_self
  have hdQ : (0 : ℚ) < (d : ℚ) := by positivity
  have h2b : (0 : ℚ) < (2 : ℚ) ^ (b : ℕ) := by positivity
  have h2b1 : (0 : ℚ) < (2 : ℚ) ^ (b + 1 : ℕ) := by positivity
  have key : ∀ s t : ℕ, ((2 : ℚ) ^ (s : ℤ) / 2 ^ (t : ℤ) ≤ q ↔
      2 ^ s * d ≤ n * 2 ^ t) ∧ ((q < 2 ^ (s : ℤ) / 2 ^ (t : ℤ)) ↔
      n * 2 ^ t < 2 ^ s * d) := by
    intro s t
    have h2t : (0 : ℚ) < (2 : ℚ) ^ (t : ℤ) := by positivity
    rw [hqnd]
    rw [div_le_div_iff₀ h2t hdQ, div_lt_div_iff₀ hdQ h2t]
    constructor
    · rw [show ((2 : ℚ) ^ (s : ℤ) = (2 : ℚ) ^ (s : ℕ)) from zpow_natCast 2 s,
        show ((2 : ℚ) ^ (t : ℤ) = (2 : ℚ) ^ (t : ℕ)) from zpow_natCast 2 t]
      constructor
      · intro hle
        have := hle
        push_cast at this ⊢
        exact_mod_cast this
      · intro hle
        exact_mod_cast hle
    · rw [show ((2 : ℚ) ^ (s : ℤ) = (2 : ℚ) ^ (s : ℕ)) from zpow_natCast 2 s,
        show ((2 : ℚ) ^ (t : ℤ) = (2 : ℚ) ^ (t : ℕ)) from zpow_natCast 2 t]
      constructor
      · intro hlt
        have := hlt
        push_cast at this ⊢
        exact_mod_cast this
      · intro hlt
        exact_mod_cast hlt
  unfold ratExp
  rw [← hn, ← hd, ← ha, ← hb]
  by_cases hcase : d * 2 ^ a ≤ n * 2 ^ b
  · rw [if_pos hcase]
    constructor
    · rw [show ((a : ℤ) - b) = (a : ℤ) - (b : ℤ) from rfl, zpow_sub₀ (by norm_num)]
      refine ((key a b).1).mpr ?_
      rw [Nat.mul_comm (2 ^ a) d]
      exact hcase
    · rw [show ((a : ℤ) - b + 1) = ((a + 1 : ℕ) : ℤ) - (b : ℤ) by push_cast; ring,
        zpow_sub₀ (by norm_num)]
      refine ((key (a + 1) b).2).mpr ?_
      calc n * 2 ^ b < 2 ^ (a + 1) * 2 ^ b :=
            (Nat.mul_lt_mul_right (by positivity)).mpr hna2
      _ ≤ 2 ^ (a + 1) * d := Nat.mul_le_mul_left _ hdb
  · rw [if_neg hcase]
    push_neg at hcase
    constructor
    · rw [show ((a : ℤ) - b - 1) = (a : ℤ) - ((b + 1 : ℕ) : ℤ) by push_cast; ring,
        zpow_sub₀ (by norm_num)]
      refine ((key a (b + 1)).1).mpr ?_
      calc 2 ^ a * d ≤ n * d := Nat.mul_le_mul_right d hna
      _ ≤ n * 2 ^ (b + 1) := Nat.mul_le_mul_left n (le_of_lt hdb2)
    · rw [show ((a : ℤ) - b - 1 + 1) = (a : ℤ) - (b : ℤ) by ring,
        zpow_sub₀ (by norm_num)]
      refine ((key a b).2).mpr ?_
      rw [Nat.mul_comm (2 ^ a) d]
      exact hcase

theorem ratExp_unique {q : ℚ} (hq : 0 < q) (e : ℤ)
    (h1 : (2 : ℚ) ^ e ≤ q) (h2 : q < 2 ^ (e + 1)) : ratExp q = e := by
  obtain ⟨hs1, hs2⟩ := ratExp_spec hq
  by_contra hne
  rcases lt_or_gt_of_ne hne with hlt | hgt
  · have : (2 : ℚ) ^ (ratExp q + 1) ≤ 2 ^ e :=
      zpow_le_zpow_right₀ (by norm_num) (by omega)
    linarith
  · have : (2 : ℚ) ^ (e + 1) ≤ 2 ^ ratExp q :=
      zpow_le_zpow_right₀ (by norm_num) (by omega)
    linarith

theorem flPos_abs {q : ℚ} (hq : 0 < q) : |flPos q - q| ≤ q / 2 ^ 53 := by
  obtain ⟨hs1, hs2⟩ := ratExp_spec hq
  set e : ℤ := ratExp q with he
  set s : ℚ := q * 2 ^ ((52 : ℤ) - e) with hs
  have hscale : (2 : ℚ) ^ ((52 : ℤ) - e) * 2 ^ (e - (52 : ℤ)) = 1 := by
    rw [← zpow_add₀ (by norm_num : (2 : ℚ) ≠ 0)]
    norm_num
  have hqback : s * 2 ^ (e - (52 : ℤ)) = q := by
    rw [hs]
    rw [mul_assoc, hscale, mul_one]
  have hdiff : flPos q - q = ((rhe s : ℚ) - s) * 2 ^ (e - (52 : ℤ)) := by
    rw [flPos, ← he, ← hs, sub_mul, hqback]
  have hpow : (0 : ℚ) < 2 ^ (e - (52 : ℤ)) := by positivity
  rw [hdiff, abs_mul, abs_of_pos hpow]
  have hrhe := rhe_abs s
  have hstep : |(rhe s : ℚ) - s| * 2 ^ (e - (52 : ℤ)) ≤ (1 / 2) * 2 ^ (e - (52 : ℤ)) :=
    mul_le_mul_of_nonneg_right hrhe (le_of_lt hpow)
  refine le_trans hstep ?_
  have h1 : (1 / 2 : ℚ) * 2 ^ (e - (52 : ℤ)) = 2 ^ (e - (53 : ℤ)) := by
    rw [show (e - (53 : ℤ)) = (e - 52) + (-1) by ring,
      zpow_add₀ (by norm_num : (2 : ℚ) ≠ 0)]
    norm_num
    ring
  rw [h1]
  have h2 : (2 : ℚ) ^ (e - (53 : ℤ)) = 2 ^ e * 2 ^ (-(53 : ℤ)) := by
    rw [← zpow_add₀ (by norm_num : (2 : ℚ) ≠ 0)]
    ring_nf
  rw [h2]
  have h3 : (2 : ℚ) ^ e * 2 ^ (-(53 : ℤ)) ≤ q * 2 ^ (-(53 : ℤ)) :=
    mul_le_mul_of_nonneg_right hs1 (by positivity)
  refine le_trans h3 ?_
  rw [div_eq_mul_inv, ← zpow_natCast (2 : ℚ) 53, ← zpow_neg]
  norm_num

theorem flRound_abs (q : ℚ) : |flRound q - q| ≤ |q| / 2 ^ 53 := by
  unfold flRound
  by_cases h0 : q = 0
  · rw [if_pos h0, h0]
    norm_num
  · rw [if_neg h0]
    by_cases hpos : 0 < q
    · rw [if_pos hpos, abs_of_pos hpos]
      exact flPos_abs hpos
    · rw [if_neg hpos]
      have hneg : 0 < -q := by
        rcases lt_trichotomy q 0 with hc | hc | hc
        · linarith
        · exact absurd hc h0
        · exact absurd hc hpos
      have hb := flPos_abs hneg
      rw [show |q| = -q from abs_of_neg (by linarith),
        show -flPos (-q) - q = -(flPos (-q) - (-q)) by ring, abs_neg]
      exact hb

theorem flRound_zero : flRound 0 = 0 := by
  unfold flRound
  norm_num

theorem flRound_nonneg {q : ℚ} (hq : 0 ≤ q) : 0 ≤ flRound q := by
  have habs := flRound_abs q
  rw [abs_of_nonneg hq] at habs
  rw [abs_le] at habs
  nlinarith [habs.1]

theorem flRound_le_mul {q : ℚ} (hq : 0 ≤ q) :
    flRound q ≤ q * (1 + 1 / 2 ^ 53) := by
  have habs := flRound_abs q
  rw [abs_of_nonneg hq, abs_le] at habs
  nlinarith [habs.2]

theorem flRound_ge_mul {q : ℚ} (hq : 0 ≤ q) :
    q * (1 - 1 / 2 ^ 53) ≤ flRound q := by
  have habs := flRound_abs q
  rw [abs_of_nonneg hq, abs_le] at habs
  nlinarith [habs.1]

theorem flRound_natCast_small (n : ℕ) (hn : n < 2 ^ 53) :
    flRound (n : ℚ) = n := by
  rcases Nat.eq_zero_or_pos n with rfl | hpos
  · simpa using flRound_zero
  have hq : (0 : ℚ) < (n : ℚ) := by positivity
  obtain ⟨hs1, hs2⟩ := ratExp_spec hq
  set e : ℤ := ratExp (n : ℚ) with he
  have he52 : e ≤ 52 := by
    by_contra hgt
    push_neg at hgt
    have h53 : (2 : ℚ) ^ (53 : ℤ) ≤ 2 ^ e := zpow_le_zpow_right₀ (by norm_num) (by omega)
    have hn53 : ((n : ℚ)) < 2 ^ (53 : ℤ) := by
      rw [show ((2 : ℚ) ^ (53 : ℤ)) = ((2 ^ 53 : ℕ) : ℚ) by push_cast; norm_num]
      exact_mod_cast hn
    linarith
  set k : ℕ := ((52 : ℤ) - e).toNat with hk
  have hke : (52 : ℤ) - e = (k : ℤ) := by omega
  have hsint : (n : ℚ) * 2 ^ ((52 : ℤ) - e) = ((n * 2 ^ k : ℕ) : ℚ) := by
    rw [hke, zpow_natCast]
    push_cast
    ring
  unfold flRound
  rw [if_neg (by positivity), if_pos hq]
  unfold flPos
  rw [← he, hsint]
  rw [show (((n * 2 ^ k : ℕ) : ℚ)) = (((n * 2 ^ k : ℕ) : ℤ) : ℚ) by push_cast; ring]
  rw [rhe_intCast]
  push_cast
  rw [mul_assoc, show ((2 : ℚ) ^ (k : ℕ) * 2 ^ (e - 52 : ℤ)) = 1 by
    rw [← zpow_natCast (2 : ℚ) k, ← zpow_add₀ (by norm_num : (2 : ℚ) ≠ 0), ← hke]
    norm_num]
  ring

theorem flRound_eval {q : ℚ} (e m : ℤ) (hq : 0 < q)
    (h1 : (2 : ℚ) ^ e ≤ q) (h2 : q < 2 ^ (e + 1))
    (hm : rhe (q * 2 ^ ((52 : ℤ) - e)) = m) :
    flRound q = (m : ℚ) * 2 ^ (e - (52 : ℤ)) := by
  unfold flRound
  rw [if_neg (by positivity), if_pos hq]
  unfold flPos
  rw [ratExp_unique hq e h1 h2, hm]

theorem rhe_eq_of_lt_half {q : ℚ} {f : ℤ} (h1 : (f : ℚ) ≤ q) (h2 : q < f + 1 / 2) :
    rhe q = f := by
  have hf : ⌊q⌋ = f := Int.floor_eq_iff.mpr ⟨h1, by linarith⟩
  unfold rhe
  rw [hf, if_pos (by linarith)]

theorem rhe_eq_of_gt_half {q : ℚ} {f : ℤ} (h1 : (f : ℚ) + 1 / 2 < q) (h2 : q < f + 1) :
    rhe q = f + 1 := by
  have hf : ⌊q⌋ = f := Int.floor_eq_iff.mpr ⟨by linarith, h2⟩
  unfold rhe
  rw [hf, if_neg (by linarith), if_pos (by linarith)]

/-! ### Alpha blending (`draw_triangle` inner writes) -/

/-- The float `alpha = color[3] / 255.0` of the source: the double nearest to
`A / 255`. -/
def blendAlpha (A : ℕ) : ℚ := flRound ((A : ℚ) / 255)

/-- One blended colour channel, following the source expression
`int(existing[i] * (1 - alpha) + color[i] * alpha)` with every float
operation rounded exactly as IEEE-754 doubles: `1 - alpha`, the two
products, and the final sum each round once, and `int(...)` truncates. -/
def blendChannel (e c A : ℕ) : ℕ :=
  (qtrunc (flRound (flRound ((e : ℚ) * flRound (1 - blendAlpha A)) +
    flRound ((c : ℚ) * blendAlpha A)))).toNat

/-- The four bytes written for one blended pixel: three blended channels and
`max(existing[3], color[3])` for alpha. -/
def blendPixel (existing color : List ℕ) : List ℕ :=
  [blendChannel (existing.getD 0 0) (color.getD 0 0) (color.getD 3 0),
   blendChannel (existing.getD 1 0) (color.getD 1 0) (color.getD 3 0),
   blendChannel (existing.getD 2 0) (color.getD 2 0) (color.getD 3 0),
   max (existing.getD 3 0) (color.getD 3 0)]

theorem length_blendPixel (existing color : List ℕ) :
    (blendPixel existing color).length = 4 := rfl

theorem blendAlpha_nonneg (A : ℕ) : 0 ≤ blendAlpha A :=
  flRound_nonneg (by positivity)

theorem blendAlpha_255 : blendAlpha 255 = 1 := by
  unfold blendAlpha
  rw [show ((255 : ℕ) : ℚ) / 255 = ((1 : ℕ) : ℚ) by norm_num]
  rw [flRound_natCast_small 1 (by norm_num)]
  norm_num

theorem blendAlpha_lt_one {A : ℕ} (hA : A ≤ 254) : blendAlpha A < 1 := by
  unfold blendAlpha
  have h1 : (0 : ℚ) ≤ (A : ℚ) / 255 := by positivity
  have h2 := flRound_le_mul h1
  have h3 : ((A : ℚ) / 255) ≤ 254 / 255 := by
    have : ((A : ℚ)) ≤ 254 := by exact_mod_cast hA
    linarith
  have h4 : ((A : ℚ) / 255) * (1 + 1 / 2 ^ 53) ≤ (254 / 255) * (1 + 1 / 2 ^ 53) := by
    have hpos : (0 : ℚ) < 1 + 1 / 2 ^ 53 := by norm_num
    nlinarith
  have h5 : ((254 : ℚ) / 255) * (1 + 1 / 2 ^ 53) < 1 := by norm_num
  linarith

theorem blendChannel_alpha255 (e c : ℕ) (hc : c ≤ 255) :
    blendChannel e c 255 = c := by
  unfold blendChannel
  rw [blendAlpha_255]
  rw [show ((1 : ℚ) - 1) = 0 by ring, flRound_zero,
    show ((e : ℚ) * 0) = 0 by ring, flRound_zero,
    show ((c : ℚ) * 1) = (c : ℚ) by ring]
  rw [flRound_natCast_small c (by omega)]
  rw [show ((0 : ℚ) + (c : ℚ)) = (c : ℚ) by ring]
  rw [flRound_natCast_small c (by omega)]
  unfold qtrunc
  rw [if_neg (not_lt.mpr (by positivity))]
  rw [Int.floor_natCast]
  exact Int.toNat_natCast c

theorem blendChannel_le {e c A : ℕ} (he : e ≤ 255) (hc : c ≤ 255) (hA : A ≤ 255) :
    blendChannel e c A ≤ 255 := by
  rcases Nat.lt_or_ge A 255 with hlt | hge
  · -- A ≤ 254: bound every rounding by the relative error 2⁻⁵³
    set ε : ℚ := 1 / 2 ^ 53 with hε
    have hεpos : (0 : ℚ) < ε := by rw [hε]; norm_num
    set α : ℚ := blendAlpha A with hα
    have hα0 : 0 ≤ α := blendAlpha_nonneg A
    have hα1 : α < 1 := blendAlpha_lt_one (by omega)
    set om : ℚ := flRound (1 - α) with hom
    have hom0 : 0 ≤ om := flRound_nonneg (by linarith)
    have homle : om ≤ (1 - α) * (1 + ε) := flRound_le_mul (by linarith)
    set t1 : ℚ := flRound ((e : ℚ) * om) with ht1
    have he0 : (0 : ℚ) ≤ (e : ℚ) := by positivity
    have heQ : (e : ℚ) ≤ 255 := by exact_mod_cast he
    have ht10 : 0 ≤ t1 := flRound_nonneg (by positivity)
    have ht1le : t1 ≤ (e : ℚ) * om * (1 + ε) := flRound_le_mul (by positivity)
    have ht1le2 : t1 ≤ 255 * om * (1 + ε) := by
      have h1 : (e : ℚ) * om ≤ 255 * om := mul_le_mul_of_nonneg_right heQ hom0
      have h2 : (e : ℚ) * om * (1 + ε) ≤ 255 * om * (1 + ε) :=
        mul_le_mul_of_nonneg_right h1 (by linarith)
      linarith
    set t2 : ℚ := flRound ((c : ℚ) * α) with ht2
    have hcQ : (c : ℚ) ≤ 255 := by exact_mod_cast hc
    have ht20 : 0 ≤ t2 := flRound_nonneg (by positivity)
    have ht2le : t2 ≤ (c : ℚ) * α * (1 + ε) := flRound_le_mul (by positivity)
    have ht2le2 : t2 ≤ 255 * α * (1 + ε) := by
      have h1 : (c : ℚ) * α ≤ 255 * α := mul_le_mul_of_nonneg_right hcQ hα0
      have h2 : (c : ℚ) * α * (1 + ε) ≤ 255 * α * (1 + ε) :=
        mul_le_mul_of_nonneg_right h1 (by linarith)
      linarith
    have hsum : t1 + t2 ≤ 255 * (1 + ε) * (om + α) := by nlinarith
    have homa : om + α ≤ 1 + ε := by nlinarith
    have hsum2 : t1 + t2 ≤ 255 * (1 + ε) * (1 + ε) := by nlinarith
    set s : ℚ := flRound (t1 + t2) with hsdef
    have hs0 : 0 ≤ s := flRound_nonneg (by linarith)
    have hsle : s ≤ (t1 + t2) * (1 + ε) := flRound_le_mul (by linarith)
    have hs3 : s ≤ 255 * (1 + ε) * (1 + ε) * (1 + ε) := by nlinarith
    have hbound : (255 : ℚ) * (1 + ε) * (1 + ε) * (1 + ε) < 256 := by
      rw [hε]
      norm_num
    have hslt : s < 256 := by linarith
    unfold blendChannel
    rw [← hα, ← hom, ← ht1, ← ht2, ← hsdef]
    unfold qtrunc
    rw [if_neg (by linarith)]
    have hfloor : ⌊s⌋ < 256 := by
      rw [Int.floor_lt]
      exact_mod_cast hslt
    have hfloor0 : 0 ≤ ⌊s⌋ := Int.floor_nonneg.mpr hs0
    omega
  · have hA255 : A = 255 := by omega
    rw [hA255, blendChannel_alpha255 e c hc]
    exact hc

/-! ### The triangle rasteriser (`draw_triangle`) -/

/-- Stable sort of the vertices by y coordinate, Python's
`sorted(points, key=lambda p: p[1])`. -/
def ySort (points : List (ℤ × ℤ)) : List (ℤ × ℤ) :=
  List.insertionSort (fun p q => p.2 ≤ q.2) points

/-- The x intersections of scanline `y` with the three edges
`(s0,s1), (s1,s2), (s2,s0)`: horizontal edges are skipped, scanlines outside
an edge's y span are skipped, otherwise `x = int(p1x + t*(p2x - p1x))` with
`t = (y - p1y)/(p2y - p1y)`.  The interpolation is modelled in exact rational
arithmetic (CPython uses doubles; every claim proved below is insensitive to
sub-unit differences in these intersection values, and they coincide on all
inputs evaluated in this file). -/
def edgeIntersections (s0 s1 s2 : ℤ × ℤ) (y : ℤ) : List ℤ :=
  [(s0, s1), (s1, s2), (s2, s0)].foldl (fun acc e =>
    if e.1.2 = e.2.2 then acc
    else if y < min e.1.2 e.2.2 ∨ max e.1.2 e.2.2 < y then acc
    else acc ++ [qtrunc ((e.1.1 : ℚ) +
      ((y : ℚ) - (e.1.2 : ℚ)) / ((e.2.2 : ℚ) - (e.1.2 : ℚ)) *
        ((e.2.1 : ℚ) - (e.1.1 : ℚ)))]) []

/-- Body of the fill loop of `draw_triangle`: read the existing pixel, blend,
and write the four bytes back one at a time, exactly as the source's four
`pixels[idx+k] = ...` assignments. -/
def triFillStep (width : ℕ) (color : List ℕ) (y : ℤ) (px : List ℕ) (x : ℤ) :
    List ℕ :=
  let idx := pixIdx width x.toNat y.toNat
  let nb := blendPixel (pyslice px idx 4) color
  setByte (setByte (setByte (setByte px idx (nb.getD 0 0)) (idx + 1) (nb.getD 1 0))
    (idx + 2) (nb.getD 2 0)) (idx + 3) (nb.getD 3 0)

/-- One scanline of `draw_triangle`: skip scanlines outside the buffer,
collect the edge intersections, and when there are at least two, fill
`range(max(0, xs[0]), min(width, xs[-1] + 1))` after sorting. -/
def triRow (width height : ℕ) (s0 s1 s2 : ℤ × ℤ) (color : List ℕ)
    (px : List ℕ) (y : ℤ) : List ℕ :=
  if y < 0 ∨ (height : ℤ) ≤ y then px
  else
    let xs := edgeIntersections s0 s1 s2 y
    if 2 ≤ xs.length then
      let sorted := List.insertionSort (fun a b => a ≤ b) xs
      (intRange (max 0 (sorted.getD 0 0))
        (min (width : ℤ) (sorted.getLastD 0 + 1))).foldl
        (triFillStep width color y) px
    else px

/-- `draw_triangle(pixels, width, height, points, color)` from the source:
sort the vertices by y, return unchanged when the triangle is degenerate
(`points[2][1] == points[0][1]`), otherwise run the scanline fill for
`y in range(points[0][1], points[2][1] + 1)`. -/
def draw_triangle (pixels : List ℕ) (width height : ℕ)
    (points : List (ℤ × ℤ)) (color : List ℕ) : List ℕ :=
  let sorted := ySort points
  if (sorted.getD 2 (0, 0)).2 = (sorted.getD 0 (0, 0)).2 then pixels
  else
    (intRange (sorted.getD 0 (0, 0)).2 ((sorted.getD 2 (0, 0)).2 + 1)).foldl
      (triRow width height (sorted.getD 0 (0, 0)) (sorted.getD 1 (0, 0))
        (sorted.getD 2 (0, 0)) color) pixels

/-- The condition under which the fill loop of one scanline writes column `x`:
at least two edge intersections, and `x` inside
`[max(0, xs[0]), min(width, xs[-1] + 1))` of the sorted intersections. -/
def rowCovered (width : ℕ) (s0 s1 s2 : ℤ × ℤ) (y x : ℤ) : Prop :=
  2 ≤ (edgeIntersections s0 s1 s2 y).length ∧
    max 0 ((List.insertionSort (fun a b => a ≤ b)
      (edgeIntersections s0 s1 s2 y)).getD 0 0) ≤ x ∧
    x < min (width : ℤ)
      ((List.insertionSort (fun a b => a ≤ b)
        (edgeIntersections s0 s1 s2 y)).getLastD 0 + 1)

instance (width : ℕ) (s0 s1 s2 : ℤ × ℤ) (y x : ℤ) :
    Decidable (rowCovered width s0 s1 s2 y x) := by
  unfold rowCovered
  infer_instance

/-- The condition under which `draw_triangle` blends pixel `(x, y)`:
non-degenerate triangle, scanline inside both the triangle's y span and the
buffer, and column covered by that scanline's fill range. -/
def triCovered (width height : ℕ) (points : List (ℤ × ℤ)) (x y : ℤ) : Prop :=
  ¬((ySort points).getD 2 (0, 0)).2 = ((ySort points).getD 0 (0, 0)).2 ∧
    ((ySort points).getD 0 (0, 0)).2 ≤ y ∧
    y < ((ySort points).getD 2 (0, 0)).2 + 1 ∧
    0 ≤ y ∧ y < (height : ℤ) ∧
    rowCovered width ((ySort points).getD 0 (0, 0)) ((ySort points).getD 1 (0, 0))
      ((ySort points).getD 2 (0, 0)) y x

instance (width height : ℕ) (points : List (ℤ × ℤ)) (x y : ℤ) :
    Decidable (triCovered width height points x y) := by
  unfold triCovered
  infer_instance

theorem getD_fourSetBytes {px : List ℕ} {idx n0 n1 n2 n3 j : ℕ}
    (h : idx + 4 ≤ px.length) :
    (setByte (setByte (setByte (setByte px idx n0) (idx + 1) n1) (idx + 2) n2)
      (idx + 3) n3).getD j 0 =
      if j = idx then n0 else if j = idx + 1 then n1 else if j = idx + 2 then n2
      else if j = idx + 3 then n3 else px.getD j 0 := by
  have l0 : (setByte px idx n0).length = px.length :=
    length_setByte _ _ _ (by omega)
  have l1 : (setByte (setByte px idx n0) (idx + 1) n1).length = px.length := by
    rw [length_setByte _ _ _ (by omega), l0]
  have l2 : (setByte (setByte (setByte px idx n0) (idx + 1) n1) (idx + 2) n2).length
      = px.length := by
    rw [length_setByte _ _ _ (by omega), l1]
  rw [getD_setByte _ _ _ _ (by omega), getD_setByte _ _ _ _ (by omega),
    getD_setByte _ _ _ _ (by omega), getD_setByte _ _ _ _ (by omega)]
  split_ifs <;> omega

theorem length_fourSetBytes {px : List ℕ} {idx n0 n1 n2 n3 : ℕ}
    (h : idx + 4 ≤ px.length) :
    (setByte (setByte (setByte (setByte px idx n0) (idx + 1) n1) (idx + 2) n2)
      (idx + 3) n3).length = px.length := by
  have l0 : (setByte px idx n0).length = px.length :=
    length_setByte _ _ _ (by omega)
  have l1 : (setByte (setByte px idx n0) (idx + 1) n1).length = px.length := by
    rw [length_setByte _ _ _ (by omega), l0]
  have l2 : (setByte (setByte (setByte px idx n0) (idx + 1) n1) (idx + 2) n2).length
      = px.length := by
    rw [length_setByte _ _ _ (by omega), l1]
  rw [length_setByte _ _ _ (by omega), l2]

theorem triFillStep_length {width h : ℕ} {color : List ℕ} {y : ℤ} {px : List ℕ}
    {x : ℤ} (hlen : px.length = width * h * 4)
    (hx : 0 ≤ x ∧ x < width) (hy : 0 ≤ y ∧ y < h) :
    (triFillStep width color y px x).length = width * h * 4 := by
  unfold triFillStep
  rw [length_fourSetBytes (by rw [hlen]; exact pixIdx_add4_le (by omega) (by omega))]
  exact hlen

theorem triFillStep_getPix {width h : ℕ} {color : List ℕ} {y : ℤ} {px : List ℕ}
    {x : ℤ} {x₂ y₂ : ℕ} (hlen : px.length = width * h * 4)
    (hx : 0 ≤ x ∧ x < width) (hy : 0 ≤ y ∧ y < h)
    (hx₂ : x₂ < width) (hy₂ : y₂ < h) :
    getPix (triFillStep width color y px x) width x₂ y₂ =
      if (x₂ : ℤ) = x ∧ (y₂ : ℤ) = y then
        blendPixel (getPix px width x₂ y₂) color
      else getPix px width x₂ y₂ := by
  have hxw : x.toNat < width := by omega
  have hyh : y.toNat < h := by omega
  have hidx : pixIdx width x.toNat y.toNat + 4 ≤ px.length := by
    rw [hlen]; exact pixIdx_add4_le hxw hyh
  have hidx₂ : pixIdx width x₂ y₂ + 4 ≤ px.length := by
    rw [hlen]; exact pixIdx_add4_le hx₂ hy₂
  have hlenF : (triFillStep width color y px x).length = width * h * 4 :=
    triFillStep_length hlen hx hy
  simp only [triFillStep, getPix]
  by_cases heq : (x₂ : ℤ) = x ∧ (y₂ : ℤ) = y
  · have hxx : x₂ = x.toNat := by omega
    have hyy : y₂ = y.toNat := by omega
    rw [if_pos heq]
    apply eq_of_len4_getD
    · rw [show pixIdx width x₂ y₂ = pixIdx width x.toNat y.toNat by rw [hxx, hyy]] at hidx₂ ⊢
      exact length_pyslice4 _ _ (by
        rw [length_fourSetBytes hidx]
        exact hidx₂)
    · exact length_blendPixel _ _
    · intro k hk
      rw [getD_pyslice _ _ _ hk]
      rw [show pixIdx width x₂ y₂ = pixIdx width x.toNat y.toNat by rw [hxx, hyy]]
      rw [getD_fourSetBytes hidx]
      interval_cases k <;> simp [blendPixel]
  · rw [if_neg heq]
    have hne : ¬(x₂ = x.toNat ∧ y₂ = y.toNat) := by omega
    rcases @pixIdx_cases width x₂ y₂ x.toNat y.toNat hx₂ hxw with ⟨hie, hxe, hye⟩ | hd | hd
    · exact absurd ⟨hxe, hye⟩ hne
    all_goals {
      apply eq_of_len4_getD
      · exact length_pyslice4 _ _ (by rw [length_fourSetBytes hidx]; exact hidx₂)
      · exact length_pyslice4 _ _ hidx₂
      · intro k hk
        rw [getD_pyslice _ _ _ hk, getD_pyslice _ _ _ hk, getD_fourSetBytes hidx]
        split_ifs <;> omega
    }

theorem triInner_length {width h : ℕ} {color : List ℕ} {y : ℤ}
    (hy : 0 ≤ y ∧ y < h) :
    ∀ (xs : List ℤ) (px : List ℕ), px.length = width * h * 4 →
      (∀ x ∈ xs, 0 ≤ x ∧ x < width) →
      (xs.foldl (triFillStep width color y) px).length = width * h * 4 := by
  intro xs
  induction xs with
  | nil => intro px hlen _; exact hlen
  | cons a xs ih =>
    intro px hlen hxs
    simp only [List.foldl_cons]
    exact ih _ (triFillStep_length hlen (hxs a (List.mem_cons_self a xs)) hy)
      (fun x hx => hxs x (List.mem_cons_of_mem a hx))

theorem triInner_getPix {width h : ℕ} {color : List ℕ} {y : ℤ}
    (hy : 0 ≤ y ∧ y < h) {x₂ y₂ : ℕ} (hx₂ : x₂ < width) (hy₂ : y₂ < h) :
    ∀ (xs : List ℤ) (px : List ℕ), px.length = width * h * 4 → xs.Nodup →
      (∀ x ∈ xs, 0 ≤ x ∧ x < width) →
      getPix (xs.foldl (triFillStep width color y) px) width x₂ y₂ =
        if (x₂ : ℤ) ∈ xs ∧ (y₂ : ℤ) = y then
          blendPixel (getPix px width x₂ y₂) color
        else getPix px width x₂ y₂ := by
  intro xs
  induction xs with
  | nil => intro px hlen _ _; simp
  | cons a xs ih =>
    intro px hlen hnd hxs
    have hnd2 := List.nodup_cons.mp hnd
    simp only [List.foldl_cons]
    rw [ih _ (triFillStep_length hlen (hxs a (List.mem_cons_self a xs)) hy)
      hnd2.2 (fun x hx => hxs x (List.mem_cons_of_mem a hx))]
    rw [triFillStep_getPix hlen (hxs a (List.mem_cons_self a xs)) hy hx₂ hy₂]
    by_cases hmem : (x₂ : ℤ) ∈ xs ∧ (y₂ : ℤ) = y
    · rw [if_pos hmem]
      have hne : ¬((x₂ : ℤ) = a ∧ (y₂ : ℤ) = y) := by
        rintro ⟨rfl, -⟩
        exact hnd2.1 hmem.1
      rw [if_neg hne, if_pos ⟨List.mem_cons_of_mem a hmem.1, hmem.2⟩]
    · rw [if_neg hmem]
      by_cases hhead : (x₂ : ℤ) = a ∧ (y₂ : ℤ) = y
      · rw [if_pos hhead, if_pos ⟨by rw [hhead.1]; exact List.mem_cons_self a xs, hhead.2⟩]
      · rw [if_neg hhead]
        rw [if_neg (by
          rintro ⟨hmem2, hyy⟩
          rcases List.mem_cons.mp hmem2 with heq | hmem3
          · exact hhead ⟨heq, hyy⟩
          · exact hmem ⟨hmem3, hyy⟩)]

theorem triRow_length {width h : ℕ} {s0 s1 s2 : ℤ × ℤ} {color : List ℕ}
    {px : List ℕ} {y : ℤ} (hlen : px.length = width * h * 4) :
    (triRow width h s0 s1 s2 color px y).length = width * h * 4 := by
  simp only [triRow]
  by_cases hguard : y < 0 ∨ (h : ℤ) ≤ y
  · rw [if_pos hguard]
    exact hlen
  · rw [if_neg hguard]
    push_neg at hguard
    by_cases hxs2 : 2 ≤ (edgeIntersections s0 s1 s2 y).length
    · rw [if_pos hxs2]
      apply triInner_length (y := y) (h := h) ⟨by omega, by omega⟩ _ px hlen
      intro x hx
      rw [mem_intRange] at hx
      omega
    · rw [if_neg hxs2]
      exact hlen

theorem triRow_getPix {width h : ℕ} {s0 s1 s2 : ℤ × ℤ} {color : List ℕ}
    {px : List ℕ} {y : ℤ} {x₂ y₂ : ℕ} (hlen : px.length = width * h * 4)
    (hx₂ : x₂ < width) (hy₂ : y₂ < h) :
    getPix (triRow width h s0 s1 s2 color px y) width x₂ y₂ =
      if (y₂ : ℤ) = y ∧ rowCovered width s0 s1 s2 y x₂ then
        blendPixel (getPix px width x₂ y₂) color
      else getPix px width x₂ y₂ := by
  simp only [triRow]
  by_cases hguard : y < 0 ∨ (h : ℤ) ≤ y
  · rw [if_pos hguard, if_neg (by rintro ⟨rfl, -⟩; omega)]
  · rw [if_neg hguard]
    push_neg at hguard
    by_cases hxs2 : 2 ≤ (edgeIntersections s0 s1 s2 y).length
    · rw [if_pos hxs2]
      rw [triInner_getPix (y := y) (h := h) ⟨by omega, by omega⟩ hx₂ hy₂ _ px hlen
        (nodup_intRange _ _) (fun x hx => by rw [mem_intRange] at hx; omega)]
      by_cases hcond : (x₂ : ℤ) ∈ intRange
          (max 0 ((List.insertionSort (fun a b => a ≤ b)
            (edgeIntersections s0 s1 s2 y)).getD 0 0))
          (min (width : ℤ) ((List.insertionSort (fun a b => a ≤ b)
            (edgeIntersections s0 s1 s2 y)).getLastD 0 + 1)) ∧ (y₂ : ℤ) = y
      · rw [if_pos hcond]
        rw [mem_intRange] at hcond
        rw [if_pos ⟨hcond.2, hxs2, hcond.1.1, hcond.1.2⟩]
      · rw [if_neg hcond]
        rw [if_neg (by
          rintro ⟨hyy, -, hc1, hc2⟩
          exact hcond ⟨by rw [mem_intRange]; exact ⟨hc1, hc2⟩, hyy⟩)]
    · rw [if_neg hxs2]
      rw [if_neg (by
        rintro ⟨-, hcov, -, -⟩
        exact hxs2 hcov)]

theorem triOuter_getPix {width h : ℕ} {s0 s1 s2 : ℤ × ℤ} {color : List ℕ}
    {x₂ y₂ : ℕ} (hx₂ : x₂ < width) (hy₂ : y₂ < h) :
    ∀ (ys : List ℤ) (px : List ℕ), px.length = width * h * 4 → ys.Nodup →
      getPix (ys.foldl (triRow width h s0 s1 s2 color) px) width x₂ y₂ =
        if (y₂ : ℤ) ∈ ys ∧ rowCovered width s0 s1 s2 y₂ x₂ then
          blendPixel (getPix px width x₂ y₂) color
        else getPix px width x₂ y₂ := by
  intro ys
  induction ys with
  | nil => intro px hlen _; simp
  | cons a ys ih =>
    intro px hlen hnd
    have hnd2 := List.nodup_cons.mp hnd
    simp only [List.foldl_cons]
    rw [ih _ (triRow_length hlen) hnd2.2]
    rw [triRow_getPix hlen hx₂ hy₂]
    by_cases hmem : (y₂ : ℤ) ∈ ys ∧ rowCovered width s0 s1 s2 y₂ x₂
    · rw [if_pos hmem]
      have hne : ¬((y₂ : ℤ) = a ∧ rowCovered width s0 s1 s2 a x₂) := by
        rintro ⟨rfl, -⟩
        exact hnd2.1 hmem.1
      rw [if_neg hne, if_pos ⟨List.mem_cons_of_mem a hmem.1, hmem.2⟩]
    · rw [if_neg hmem]
      by_cases hhead : (y₂ : ℤ) = a ∧ rowCovered width s0 s1 s2 a x₂
      · rw [if_pos hhead]
        rw [if_pos ⟨by rw [hhead.1]; exact List.mem_cons_self a ys,
          by rw [hhead.1]; exact hhead.2⟩]
      · rw [if_neg hhead]
        rw [if_neg (by
          rintro ⟨hmem2, hcov⟩
          rcases List.mem_cons.mp hmem2 with heq | hmem3
          · exact hhead ⟨heq, heq ▸ hcov⟩
          · exact hmem ⟨hmem3, hcov⟩)]

theorem draw_triangle_length {pixels : List ℕ} {width height : ℕ}
    {points : List (ℤ × ℤ)} {color : List ℕ}
    (hlen : pixels.length = width * height * 4) :
    (draw_triangle pixels width height points color).length =
      width * height * 4 := by
  simp only [draw_triangle]
  split
  · exact hlen
  · suffices hgen : ∀ (ys : List ℤ) (px : List ℕ), px.length = width * height * 4 →
        (ys.foldl (triRow width height ((ySort points).getD 0 (0, 0))
          ((ySort points).getD 1 (0, 0)) ((ySort points).getD 2 (0, 0)) color)
          px).length = width * height * 4 by
      exact hgen _ pixels hlen
    intro ys
    induction ys with
    | nil => intro px hl; exact hl
    | cons a ys ih =>
      intro px hl
      simp only [List.foldl_cons]
      exact ih _ (triRow_length hl)

theorem draw_triangle_getPix {pixels : List ℕ} {width height : ℕ}
    {points : List (ℤ × ℤ)} {color : List ℕ} {x y : ℕ}
    (hlen : pixels.length = width * height * 4)
    (hx : x < width) (hy : y < height) :
    getPix (draw_triangle pixels width height points color) width x y =
      if triCovered width height points x y then
        blendPixel (getPix pixels width x y) color
      else getPix pixels width x y := by
  simp only [draw_triangle]
  by_cases hdeg : ((ySort points).getD 2 (0, 0)).2 = ((ySort points).getD 0 (0, 0)).2
  · rw [if_pos hdeg, if_neg (by rintro ⟨hne, -⟩; exact hne hdeg)]
  · rw [if_neg hdeg]
    rw [triOuter_getPix hx hy _ pixels hlen (nodup_intRange _ _)]
    by_cases hcond : (y : ℤ) ∈ intRange ((ySort points).getD 0 (0, 0)).2
        (((ySort points).getD 2 (0, 0)).2 + 1) ∧
        rowCovered width ((ySort points).getD 0 (0, 0)) ((ySort points).getD 1 (0, 0))
          ((ySort points).getD 2 (0, 0)) y x
    · rw [if_pos hcond]
      rw [mem_intRange] at hcond
      rw [if_pos ⟨hdeg, hcond.1.1, hcond.1.2, by omega, by omega, hcond.2⟩]
    · rw [if_neg hcond]
      rw [if_neg (by
        rintro ⟨-, hge, hlt, -, -, hcov⟩
        exact hcond ⟨by rw [mem_intRange]; exact ⟨hge, hlt⟩, hcov⟩)]

theorem draw_triangle_degenerate (pixels : List ℕ) (width height : ℕ)
    (p0 p1 p2 : ℤ × ℤ) (color : List ℕ)
    (hdeg : min p0.2 (min p1.2 p2.2) = max p0.2 (max p1.2 p2.2)) :
    draw_triangle pixels width height [p0, p1, p2] color = pixels := by
  have hall : p0.2 = p1.2 ∧ p1.2 = p2.2 := by omega
  have hsame : ∀ q ∈ ySort [p0, p1, p2], q.2 = p0.2 := by
    intro q hq
    have hperm : List.Perm (ySort [p0, p1, p2]) [p0, p1, p2] :=
      List.perm_insertionSort _ _
    have hq2 : q ∈ [p0, p1, p2] := hperm.mem_iff.mp hq
    simp only [List.mem_cons, List.not_mem_nil, or_false] at hq2
    rcases hq2 with rfl | rfl | rfl
    · rfl
    · exact hall.1.symm
    · omega
  have hlen3 : (ySort [p0, p1, p2]).length = 3 := by
    have hperm : List.Perm (ySort [p0, p1, p2]) [p0, p1, p2] :=
      List.perm_insertionSort _ _
    rw [hperm.length_eq]
    rfl
  have h0 : (ySort [p0, p1, p2]).getD 0 (0, 0) ∈ ySort [p0, p1, p2] := by
    rw [List.getD_eq_getElem _ _ (by omega)]
    exact List.getElem_mem _
  have h2 : (ySort [p0, p1, p2]).getD 2 (0, 0) ∈ ySort [p0, p1, p2] := by
    rw [List.getD_eq_getElem _ _ (by omega)]
    exact List.getElem_mem _
  simp only [draw_triangle]
  rw [if_pos (by rw [hsame _ h0, hsame _ h2])]

/-! ### Byte-range preservation -/

theorem getD_le_of_all {l : List ℕ} {i : ℕ} (h : ∀ b ∈ l, b ≤ 255) :
    l.getD i 0 ≤ 255 := by
  by_cases hi : i < l.length
  · rw [List.getD_eq_getElem _ _ hi]
    exact h _ (List.getElem_mem _)
  · rw [List.getD_eq_default _ _ (by omega)]
    omega

theorem mem_setSlice4 {l seg : List ℕ} {i : ℕ} {b : ℕ}
    (hb : b ∈ setSlice4 l i seg) : b ∈ l ∨ b ∈ seg := by
  unfold setSlice4 at hb
  simp only [List.mem_append] at hb
  rcases hb with (hb | hb) | hb
  · exact Or.inl (List.mem_of_mem_take hb)
  · exact Or.inr hb
  · exact Or.inl (List.mem_of_mem_drop hb)

theorem mem_setByte {l : List ℕ} {i v b : ℕ} (hb : b ∈ setByte l i v) :
    b ∈ l ∨ b = v := by
  unfold setByte at hb
  simp only [List.mem_append, List.mem_singleton] at hb
  rcases hb with (hb | hb) | hb
  · exact Or.inl (List.mem_of_mem_take hb)
  · exact Or.inr hb
  · exact Or.inl (List.mem_of_mem_drop hb)

theorem foldl_bytes_inv {α : Type} (f : List ℕ → α → List ℕ)
    (hf : ∀ px a, (∀ b ∈ px, b ≤ 255) → ∀ b ∈ f px a, b ≤ 255) :
    ∀ (l : List α) (px : List ℕ), (∀ b ∈ px, b ≤ 255) →
      ∀ b ∈ l.foldl f px, b ≤ 255 := by
  intro l
  induction l with
  | nil => intro px hpx; exact hpx
  | cons a l ih =>
    intro px hpx
    simp only [List.foldl_cons]
    exact ih _ (hf px a hpx)

theorem draw_circle_bytes {pixels : List ℕ} {width height : ℕ}
    {cx cy radius : ℤ} {color : List ℕ}
    (hpx : ∀ b ∈ pixels, b ≤ 255) (hcol : ∀ b ∈ color, b ≤ 255) :
    ∀ b ∈ draw_circle pixels width height cx cy radius color, b ≤ 255 := by
  unfold draw_circle
  refine foldl_bytes_inv _ ?_ _ pixels hpx
  intro px y hp
  unfold circleRow
  refine foldl_bytes_inv _ ?_ _ px hp
  intro px2 x hp2
  unfold circleStep
  split
  · intro b hb
    rcases mem_setSlice4 hb with hb | hb
    · exact hp2 b hb
    · exact hcol b hb
  · exact hp2

theorem blendPixel_bytes {existing color : List ℕ}
    (hex : ∀ b ∈ existing, b ≤ 255) (hcol : ∀ b ∈ color, b ≤ 255) :
    ∀ b ∈ blendPixel existing color, b ≤ 255 := by
  intro b hb
  have he0 := getD_le_of_all (i := 0) hex
  have he1 := getD_le_of_all (i := 1) hex
  have he2 := getD_le_of_all (i := 2) hex
  have he3 := getD_le_of_all (i := 3) hex
  have hc0 := getD_le_of_all (i := 0) hcol
  have hc1 := getD_le_of_all (i := 1) hcol
  have hc2 := getD_le_of_all (i := 2) hcol
  have hc3 := getD_le_of_all (i := 3) hcol
  simp only [blendPixel, List.mem_cons, List.not_mem_nil, or_false] at hb
  rcases hb with rfl | rfl | rfl | rfl
  · exact blendChannel_le he0 hc0 hc3
  · exact blendChannel_le he1 hc1 hc3
  · exact blendChannel_le he2 hc2 hc3
  · omega

theorem pyslice_bytes {l : List ℕ} {i n : ℕ} (h : ∀ b ∈ l, b ≤ 255) :
    ∀ b ∈ pyslice l i n, b ≤ 255 := by
  intro b hb
  unfold pyslice at hb
  exact h b (List.mem_of_mem_drop (List.mem_of_mem_take hb))

theorem draw_triangle_bytes {pixels : List ℕ} {width height : ℕ}
    {points : List (ℤ × ℤ)} {color : List ℕ}
    (hpx : ∀ b ∈ pixels, b ≤ 255) (hcol : ∀ b ∈ color, b ≤ 255) :
    ∀ b ∈ draw_triangle pixels width height points color, b ≤ 255 := by
  simp only [draw_triangle]
  split
  · exact hpx
  · refine foldl_bytes_inv _ ?_ _ pixels hpx
    intro px y hp
    simp only [triRow]
    split
    · exact hp
    · split
      · refine foldl_bytes_inv _ ?_ _ px hp
        intro px2 x hp2
        simp only [triFillStep]
        intro b hb
        have hnb : ∀ v ∈ blendPixel (pyslice px2 (pixIdx width x.toNat y.toNat) 4) color,
            v ≤ 255 :=
          blendPixel_bytes (pyslice_bytes hp2) hcol
        have hnb0 := getD_le_of_all (i := 0) hnb
        have hnb1 := getD_le_of_all (i := 1) hnb
        have hnb2 := getD_le_of_all (i := 2) hnb
        have hnb3 := getD_le_of_all (i := 3) hnb
        rcases mem_setByte hb with hb | rfl
        · rcases mem_setByte hb with hb | rfl
          · rcases mem_setByte hb with hb | rfl
            · rcases mem_setByte hb with hb | rfl
              · exact hp2 b hb
              · exact hnb0
            · exact hnb1
          · exact hnb2
        · exact hnb3
      · exact hp

/-! ### Icon composition (`create_icon`, `create_recording_icon`)

Both composer functions are straight-line sequences of `draw_circle` /
`draw_triangle` calls guarded by the two size thresholds.  The sequence is
captured as a list of `DrawOp`s folded over the zero-initialised buffer
(``bytearray(width * height * 4)`` is already all zeroes, so the explicit
transparent-fill loop of the source is the identity on it). -/

/-- One drawing command of the composition recipes. -/
inductive DrawOp where
  | circle (cx cy radius : ℤ) (color : List ℕ)
  | triangle (points : List (ℤ × ℤ)) (color : List ℕ)

/-- Execute one drawing command on a buffer. -/
def applyOp (width height : ℕ) (px : List ℕ) : DrawOp → List ℕ
  | DrawOp.circle cx cy radius color => draw_circle px width height cx cy radius color
  | DrawOp.triangle points color => draw_triangle px width height points color

/-- Python `int(v * c)` where `c` is the decimal literal `num / den`:
the literal is parsed to the nearest double, the product is rounded to a
double, and `int` truncates toward zero. -/
def pyMulFloat (v : ℤ) (num den : ℕ) : ℤ :=
  qtrunc (flRound ((v : ℚ) * flRound ((num : ℚ) / (den : ℚ))))

/-- The four unconditional circles of `create_icon`: background `0.47` in
`#1e40af`, border `0.45` in `#3b82f6`, inner `0.42` in `#1e40af`, and the
record button `0.15` in `#ef4444`, all centred at `size // 2`. -/
def iconBaseOps (size : ℕ) : List DrawOp :=
  let center : ℤ := ((size / 2 : ℕ) : ℤ)
  [DrawOp.circle center center (pyMulFloat size 47 100) [0x1e, 0x40, 0xaf, 0xff],
   DrawOp.circle center center (pyMulFloat size 45 100) [0x3b, 0x82, 0xf6, 0xff],
   DrawOp.circle center center (pyMulFloat size 42 100) [0x1e, 0x40, 0xaf, 0xff],
   DrawOp.circle center center (pyMulFloat size 15 100) [0xef, 0x44, 0x44, 0xff]]

/-- The play-arrow triangle of `create_icon`, drawn only when `size >= 32`:
vertices `(left, top), (left, bottom), (right, center)` in semi-transparent
white `0xffffffb0`. -/
def iconArrowOps (size : ℕ) : List DrawOp :=
  if 32 ≤ size then
    let center : ℤ := ((size / 2 : ℕ) : ℤ)
    let arrow : ℤ := pyMulFloat size 2 10
    [DrawOp.triangle
      [(center - arrow, center - pyMulFloat arrow 7 10),
       (center - arrow, center + pyMulFloat arrow 7 10),
       (center + arrow, center)]
      [0xff, 0xff, 0xff, 0xb0]]
  else []

/-- The four corner accent dots of `create_icon`, drawn only when
`size >= 48`: radius `max(2, size // 25)`, margin `int(size * 0.23)`,
colour `#10b981`. -/
def iconDotOps (size : ℕ) : List DrawOp :=
  if 48 ≤ size then
    let dr : ℤ := max 2 ((size / 25 : ℕ) : ℤ)
    let margin : ℤ := pyMulFloat size 23 100
    [DrawOp.circle margin margin dr [0x10, 0xb9, 0x81, 0xff],
     DrawOp.circle ((size : ℤ) - margin) margin dr [0x10, 0xb9, 0x81, 0xff],
     DrawOp.circle margin ((size : ℤ) - margin) dr [0x10, 0xb9, 0x81, 0xff],
     DrawOp.circle ((size : ℤ) - margin) ((size : ℤ) - margin) dr
       [0x10, 0xb9, 0x81, 0xff]]
  else []

/-- The drawing sequence of `create_icon`, in source order. -/
def iconOps (size : ℕ) : List DrawOp :=
  iconBaseOps size ++ iconArrowOps size ++ iconDotOps size

/-- The four unconditional circles of `create_recording_icon`: background
`0.47` in `#7f1d1d`, border `0.45` in `#ef4444`, inner `0.42` in `#7f1d1d`,
and the larger record button `0.2` in `#ff0000`. -/
def recordingBaseOps (size : ℕ) : List DrawOp :=
  let center : ℤ := ((size / 2 : ℕ) : ℤ)
  [DrawOp.circle center center (pyMulFloat size 47 100) [0x7f, 0x1d, 0x1d, 0xff],
   DrawOp.circle center center (pyMulFloat size 45 100) [0xef, 0x44, 0x44, 0xff],
   DrawOp.circle center center (pyMulFloat size 42 100) [0x7f, 0x1d, 0x1d, 0xff],
   DrawOp.circle center center (pyMulFloat size 2 10) [0xff, 0x00, 0x00, 0xff]]

/-- The white recording-indicator dot of `create_recording_icon`, a circle
(not a triangle) drawn only when `size >= 32`. -/
def recordingIndicatorOps (size : ℕ) : List DrawOp :=
  if 32 ≤ size then
    let center : ℤ := ((size / 2 : ℕ) : ℤ)
    [DrawOp.circle center center (pyMulFloat size 8 100) [0xff, 0xff, 0xff, 0xff]]
  else []

/-- The four corner accent dots of `create_recording_icon`, drawn only when
`size >= 48`, colour `#ef4444`. -/
def recordingDotOps (size : ℕ) : List DrawOp :=
  if 48 ≤ size then
    let dr : ℤ := max 2 ((size / 25 : ℕ) : ℤ)
    let margin : ℤ := pyMulFloat size 23 100
    [DrawOp.circle margin margin dr [0xef, 0x44, 0x44, 0xff],
     DrawOp.circle ((size : ℤ) - margin) margin dr [0xef, 0x44, 0x44, 0xff],
     DrawOp.circle margin ((size : ℤ) - margin) dr [0xef, 0x44, 0x44, 0xff],
     DrawOp.circle ((size : ℤ) - margin) ((size : ℤ) - margin) dr
       [0xef, 0x44, 0x44, 0xff]]
  else []

/-- The drawing sequence of `create_recording_icon`, in source order. -/
def recordingOps (size : ℕ) : List DrawOp :=
  recordingBaseOps size ++ recordingIndicatorOps size ++ recordingDotOps size

/-- The pixel buffer produced by `create_icon(size)` before encoding. -/
def create_icon_pixels (size : ℕ) : List ℕ :=
  (iconOps size).foldl (applyOp size size) (List.replicate (size * size * 4) 0)

/-- `create_icon(size)`: compose the buffer and encode it as a PNG. -/
def create_icon (compress : List ℕ → List ℕ) (size : ℕ) : List ℕ :=
  create_png compress size size (create_icon_pixels size)

/-- The pixel buffer produced by `create_recording_icon(size)` before encoding. -/
def create_recording_icon_pixels (size : ℕ) : List ℕ :=
  (recordingOps size).foldl (applyOp size size) (List.replicate (size * size * 4) 0)

/-- `create_recording_icon(size)`: compose the buffer and encode it as a PNG. -/
def create_recording_icon (compress : List ℕ → List ℕ) (size : ℕ) : List ℕ :=
  create_png compress size size (create_recording_icon_pixels size)

/-- Whether a drawing command is a (play-arrow) triangle draw. -/
def isTriangleOp : DrawOp → Bool
  | DrawOp.triangle _ _ => true
  | DrawOp.circle _ _ _ _ => false

/-- Whether a drawing sequence contains a triangle draw. -/
def hasTriangleOp (ops : List DrawOp) : Bool := ops.any isTriangleOp

/-! ### Concrete evaluation of one blended channel

`blendChannel 3 3 5` is the value CPython computes for
`int(3 * (1 - 5/255) + 3 * (5/255))`.  The exact real value of the blend
expression is `3`, but the rounded double computation lands just below `3`
and `int` truncates to `2`.  Each step below is one correctly rounded
float operation. -/

theorem blendAlpha_5 :
    blendAlpha 5 = (5651576002974740 : ℚ) * 2 ^ ((-6 : ℤ) - 52) := by
  unfold blendAlpha
  rw [show ((5 : ℕ) : ℚ) / 255 = 5 / 255 by norm_num]
  exact flRound_eval (-6) 5651576002974740 (by norm_num) (by norm_num) (by norm_num)
    (rhe_eq_of_lt_half (f := 5651576002974740) (by norm_num) (by norm_num))

theorem blendOm_5 :
    flRound (1 - blendAlpha 5) = (8830587504648031 : ℚ) * 2 ^ ((-1 : ℤ) - 52) := by
  rw [blendAlpha_5]
  exact flRound_eval (-1) 8830587504648031 (by norm_num) (by norm_num) (by norm_num)
    (rhe_eq_of_lt_half (f := 8830587504648031) (by norm_num) (by norm_num))

theorem blendT1_335 :
    flRound (((3 : ℕ) : ℚ) * flRound (1 - blendAlpha 5)) =
      (6622940628486023 : ℚ) * 2 ^ ((1 : ℤ) - 52) := by
  rw [blendOm_5, show ((3 : ℕ) : ℚ) = 3 by norm_num]
  exact flRound_eval 1 6622940628486023 (by norm_num) (by norm_num) (by norm_num)
    (rhe_eq_of_lt_half (f := 6622940628486023) (by norm_num) (by norm_num))

theorem blendT2_335 :
    flRound (((3 : ℕ) : ℚ) * blendAlpha 5) =
      (8477364004462110 : ℚ) * 2 ^ ((-5 : ℤ) - 52) := by
  rw [blendAlpha_5, show ((3 : ℕ) : ℚ) = 3 by norm_num]
  exact flRound_eval (-5) 8477364004462110 (by norm_num) (by norm_num) (by norm_num)
    (rhe_eq_of_lt_half (f := 8477364004462110) (by norm_num) (by norm_num))

theorem blendChannel_3_3_5 : blendChannel 3 3 5 = 2 := by
  unfold blendChannel
  rw [blendT1_335, blendT2_335]
  have hs : flRound ((6622940628486023 : ℚ) * 2 ^ ((1 : ℤ) - 52) +
      (8477364004462110 : ℚ) * 2 ^ ((-5 : ℤ) - 52)) =
      (6755399441055743 : ℚ) * 2 ^ ((1 : ℤ) - 52) := by
    exact flRound_eval 1 6755399441055743 (by norm_num) (by norm_num) (by norm_num)
      (rhe_eq_of_lt_half (f := 6755399441055743) (by norm_num) (by norm_num))
  rw [hs]
  unfold qtrunc
  rw [if_neg (by norm_num)]
  rw [show ⌊(6755399441055743 : ℚ) * 2 ^ ((1 : ℤ) - 52)⌋ = 2 by
    rw [Int.floor_eq_iff]
    norm_num]
  rfl

theorem pyslice_zero_four {l : List ℕ} (h : l.length = 4) : pyslice l 0 4 = l := by
  unfold pyslice
  rw [List.drop_zero]
  exact List.take_of_length_le (by omega)

theorem edgeIntersections_ctrex :
    edgeIntersections ((0 : ℤ), (-1 : ℤ)) ((1 : ℤ), (0 : ℤ)) ((0 : ℤ), (1 : ℤ)) 0 =
      [1, 1, 0] := by
  simp only [edgeIntersections, List.foldl_cons, List.foldl_nil]
  norm_num [qtrunc]

/-- Specification-side blend channel exactly as claim C5 words it:
`existing*(1-a) + color*a` with `a = A/255` in exact arithmetic,
truncated to an integer. -/
def exactBlendChannel (e c A : ℕ) : ℤ :=
  qtrunc ((e : ℚ) * (1 - (A : ℚ) / 255) + (c : ℚ) * ((A : ℚ) / 255))

theorem ySort_ctrex :
    ySort [((0 : ℤ), (-1 : ℤ)), ((0 : ℤ), (1 : ℤ)), ((1 : ℤ), (0 : ℤ))] =
      [(0, -1), (1, 0), (0, 1)] := by
  decide

theorem triCovered_ctrex :
    triCovered 1 1 [((0 : ℤ), (-1 : ℤ)), ((0 : ℤ), (1 : ℤ)), ((1 : ℤ), (0 : ℤ))] 0 0 := by
  unfold triCovered rowCovered
  rw [ySort_ctrex]
  simp only [List.getD_cons_zero, List.getD_cons_succ]
  rw [edgeIntersections_ctrex]
  refine ⟨by decide, by decide, by decide, by decide, by decide, by decide, ?_, ?_⟩
  · decide
  · decide

theorem draw_triangle_ctrex :
    draw_triangle [3, 3, 3, 0] 1 1
      [((0 : ℤ), (-1 : ℤ)), ((0 : ℤ), (1 : ℤ)), ((1 : ℤ), (0 : ℤ))] [3, 3, 3, 5] =
      [2, 2, 2, 5] := by
  have hlen0 : ([3, 3, 3, 0] : List ℕ).length = 1 * 1 * 4 := by decide
  have hres := @draw_triangle_getPix [3, 3, 3, 0] 1 1
    [((0 : ℤ), (-1 : ℤ)), ((0 : ℤ), (1 : ℤ)), ((1 : ℤ), (0 : ℤ))]
    [3, 3, 3, 5] 0 0 hlen0 (by decide) (by decide)
  push_cast at hres
  rw [if_pos triCovered_ctrex] at hres
  have hgp0 : getPix [3, 3, 3, 0] 1 0 0 = [3, 3, 3, 0] := rfl
  rw [hgp0] at hres
  have hblend : blendPixel [3, 3, 3, 0] [3, 3, 3, 5] = [2, 2, 2, 5] := by
    simp [blendPixel, blendChannel_3_3_5]
  rw [hblend] at hres
  have hlen4 : (draw_triangle [3, 3, 3, 0] 1 1
      [((0 : ℤ), (-1 : ℤ)), ((0 : ℤ), (1 : ℤ)), ((1 : ℤ), (0 : ℤ))] [3, 3, 3, 5]).length = 4 := by
    rw [draw_triangle_length hlen0]
  calc draw_triangle [3, 3, 3, 0] 1 1
        [((0 : ℤ), (-1 : ℤ)), ((0 : ℤ), (1 : ℤ)), ((1 : ℤ), (0 : ℤ))] [3, 3, 3, 5]
      = pyslice (draw_triangle [3, 3, 3, 0] 1 1
          [((0 : ℤ), (-1 : ℤ)), ((0 : ℤ), (1 : ℤ)), ((1 : ℤ), (0 : ℤ))] [3, 3, 3, 5]) 0 4 :=
        (pyslice_zero_four hlen4).symm
    _ = getPix (draw_triangle [3, 3, 3, 0] 1 1
          [((0 : ℤ), (-1 : ℤ)), ((0 : ℤ), (1 : ℤ)), ((1 : ℤ), (0 : ℤ))] [3, 3, 3, 5]) 1 0 0 :=
        rfl
    _ = [2, 2, 2, 5] := hres

/-! ### Claim theorems -/

/-- Claim C1: for every width, height and flat RGBA buffer of
`width*height*4` bytes, `create_png` returns exactly the 8-byte PNG
signature, an IHDR chunk whose 13-byte payload packs width, height, bit
depth 8, color type 6, compression 0, filter 0, interlace 0 (big-endian),
one IDAT chunk whose payload decompresses to the scanlines in row order
each prefixed by filter byte 0, and a zero-length IEND chunk; in particular
the stream begins with the signature and ends with the IEND chunk
(`zlib` is modelled by any compression function with a left inverse). -/
theorem claim1_png_stream (compress decompress : List ℕ → List ℕ)
    (hinv : ∀ l, decompress (compress l) = l)
    (width height : ℕ) (pixels : List ℕ)
    (hlen : pixels.length = width * height * 4) :
    create_png compress width height pixels =
      pngSignature ++ pngChunk tagIHDR (be32 width ++ be32 height ++ [8, 6, 0, 0, 0]) ++
        pngChunk tagIDAT (compress (specScanlines pixels width height)) ++
        pngChunk tagIEND [] ∧
    decompress (compress (specScanlines pixels width height)) =
      specScanlines pixels width height ∧
    pngSignature <+: create_png compress width height pixels ∧
    pngChunk tagIEND [] <:+ create_png compress width height pixels := by
  have h1 := create_png_eq_chunks compress width height pixels
  rw [rawData_eq_specScanlines] at h1
  have h2 : ihdrData width height = be32 width ++ be32 height ++ [8, 6, 0, 0, 0] := rfl
  rw [h2] at h1
  refine ⟨h1, hinv _, ?_, ?_⟩
  · rw [h1, List.append_assoc, List.append_assoc, List.append_assoc]
    exact List.prefix_append _ _
  · rw [h1]
    exact List.suffix_append _ _

/-- Witness for C1 at `width = height = 1`, `pixels = [9, 8, 7, 6]`, with the
identity as compressor. -/
theorem claim1_png_stream_witness :
    create_png id 1 1 [9, 8, 7, 6] =
      pngSignature ++ pngChunk tagIHDR (be32 1 ++ be32 1 ++ [8, 6, 0, 0, 0]) ++
        pngChunk tagIDAT (specScanlines [9, 8, 7, 6] 1 1) ++ pngChunk tagIEND [] ∧
    specScanlines [9, 8, 7, 6] 1 1 = specScanlines [9, 8, 7, 6] 1 1 ∧
    pngSignature <+: create_png id 1 1 [9, 8, 7, 6] ∧
    pngChunk tagIEND [] <:+ create_png id 1 1 [9, 8, 7, 6] :=
  claim1_png_stream id id (fun _ => rfl) 1 1 [9, 8, 7, 6] (by decide)

/-- Claim C2: every chunk emitted by `create_png` is laid out as a 4-byte
big-endian payload length, a 4-byte ASCII type tag, the payload, and a
4-byte big-endian checksum equal to CRC-32 over (tag ++ payload); the
stream consists of the signature followed by exactly the IHDR, IDAT and
IEND chunks in that layout. -/
theorem claim2_chunk_layout (compress : List ℕ → List ℕ) (width height : ℕ)
    (pixels : List ℕ) :
    create_png compress width height pixels =
      pngSignature ++ pngChunk tagIHDR (ihdrData width height) ++
        pngChunk tagIDAT (compress (rawData pixels width height)) ++
        pngChunk tagIEND [] ∧
    ∀ tag payload : List ℕ, pngChunk tag payload =
      be32 payload.length ++ tag ++ payload ++ be32 (crc32 (tag ++ payload)) :=
  ⟨create_png_eq_chunks compress width height pixels, fun _ _ => rfl⟩

/-- Claim C3: `draw_circle` and `draw_triangle` clip to the buffer for any
shape parameters, including shapes partly or wholly outside: no write lands
outside pixels `[0, width) × [0, height)`.  A write past the end of the flat
buffer would change its length under Python slice-assignment semantics, so
length preservation states exactly this safety property. -/
theorem claim3_clipping (pixels : List ℕ) (width height : ℕ)
    (cx cy radius : ℤ) (points : List (ℤ × ℤ)) (color : List ℕ)
    (hlen : pixels.length = width * height * 4) (hcol : color.length = 4) :
    (draw_circle pixels width height cx cy radius color).length =
      width * height * 4 ∧
    (draw_triangle pixels width height points color).length =
      width * height * 4 :=
  ⟨draw_circle_length hlen hcol, draw_triangle_length hlen⟩

/-- Witness for C3: a circle and triangle lying far outside a 1×1 buffer. -/
theorem claim3_clipping_witness :
    (draw_circle [0, 0, 0, 0] 1 1 100 200 7 [1, 2, 3, 4]).length = 1 * 1 * 4 ∧
    (draw_triangle [0, 0, 0, 0] 1 1 [((30 : ℤ), (10 : ℤ)), ((35 : ℤ), (40 : ℤ)),
      ((20 : ℤ), (25 : ℤ))] [1, 2, 3, 4]).length = 1 * 1 * 4 :=
  claim3_clipping [0, 0, 0, 0] 1 1 100 200 7
    [((30 : ℤ), (10 : ℤ)), ((35 : ℤ), (40 : ℤ)), ((20 : ℤ), (25 : ℤ))] [1, 2, 3, 4]
    (by decide) (by decide)

/-- Claim C4: after `draw_circle` with non-negative radius, every in-buffer
pixel with `(x-cx)² + (y-cy)² ≤ radius²` holds exactly the 4 bytes of
`color` (opaque overwrite), and every other pixel is unchanged. -/
theorem claim4_circle_overwrite (pixels : List ℕ) (width height : ℕ)
    (cx cy radius : ℤ) (color : List ℕ) (x y : ℕ)
    (hlen : pixels.length = width * height * 4) (hcol : color.length = 4)
    (hr : 0 ≤ radius) (hx : x < width) (hy : y < height) :
    getPix (draw_circle pixels width height cx cy radius color) width x y =
      if ((x : ℤ) - cx) ^ 2 + ((y : ℤ) - cy) ^ 2 ≤ radius ^ 2 then color
      else getPix pixels width x y := by
  have hiff : ((x : ℤ) - cx) ^ 2 + ((y : ℤ) - cy) ^ 2 ≤ radius ^ 2 ↔
      inDisk cx cy radius x y := by
    unfold inDisk
    rw [pow_two, pow_two, pow_two]
  rw [draw_circle_getPix hlen hcol hr hx hy]
  by_cases hd : inDisk cx cy radius x y
  · rw [if_pos hd, if_pos (hiff.mpr hd)]
  · rw [if_neg hd, if_neg (fun hc => hd (hiff.mp hc))]

/-- Witness for C4 at a 2×2 buffer, circle centred at the origin, radius 1,
observed at pixel (0, 1). -/
theorem claim4_circle_overwrite_witness :
    getPix (draw_circle [0, 0, 0, 0, 0, 0, 0, 0, 0, 0, 0, 0, 0, 0, 0, 0]
      2 2 0 0 1 [9, 9, 9, 9]) 2 0 1 =
      if ((0 : ℤ) - 0) ^ 2 + ((1 : ℤ) - 0) ^ 2 ≤ (1 : ℤ) ^ 2 then [9, 9, 9, 9]
      else getPix [0, 0, 0, 0, 0, 0, 0, 0, 0, 0, 0, 0, 0, 0, 0, 0] 2 0 1 :=
  claim4_circle_overwrite _ 2 2 0 0 1 [9, 9, 9, 9] 0 1 (by decide) (by decide)
    (by decide) (by decide) (by decide)

/-- Counterexample for claim C5 as stated: in the 1×1 buffer `[3,3,3,0]`,
the triangle `(0,-1), (0,1), (1,0)` with colour `(3,3,3)` and alpha `5`
fills pixel `(0,0)` (third conjunct), and the code leaves channel value `2`
there, while the claim's exact formula `existing*(1-a)+color*a` truncated
gives `3`: CPython evaluates the blend with IEEE-754 doubles, whose
rounding drops the value just below the exact result `3`. -/
theorem claim5_counterexample :
    draw_triangle [3, 3, 3, 0] 1 1
      [((0 : ℤ), (-1 : ℤ)), ((0 : ℤ), (1 : ℤ)), ((1 : ℤ), (0 : ℤ))] [3, 3, 3, 5] =
      [2, 2, 2, 5] ∧
    exactBlendChannel 3 3 5 = 3 ∧
    triCovered 1 1 [((0 : ℤ), (-1 : ℤ)), ((0 : ℤ), (1 : ℤ)), ((1 : ℤ), (0 : ℤ))] 0 0 ∧
    (2 : ℕ) ≠ 3 := by
  refine ⟨draw_triangle_ctrex, ?_, triCovered_ctrex, by decide⟩
  unfold exactBlendChannel qtrunc
  norm_num

/-- Claim C5 as amended: every pixel filled by `draw_triangle` receives, on
each of R, G, B, the value of `existing*(1-a) + color*a` (`a = A/255`)
evaluated in IEEE-754 double precision — every float operation correctly
rounded, as CPython computes it — truncated to an integer, and the output
alpha is `max(existing alpha, A)`; pixels not filled are unchanged. -/
theorem claim5_blend_double (pixels : List ℕ) (width height : ℕ)
    (points : List (ℤ × ℤ)) (color : List ℕ) (x y : ℕ)
    (hlen : pixels.length = width * height * 4)
    (hx : x < width) (hy : y < height) :
    (getPix (draw_triangle pixels width height points color) width x y =
      if triCovered width height points x y then
        blendPixel (getPix pixels width x y) color
      else getPix pixels width x y) ∧
    (∀ e c A : ℕ, blendChannel e c A =
      (qtrunc (flRound (flRound ((e : ℚ) * flRound (1 - flRound ((A : ℚ) / 255))) +
        flRound ((c : ℚ) * flRound ((A : ℚ) / 255))))).toNat) ∧
    (∀ existing col : List ℕ, blendPixel existing col =
      [blendChannel (existing.getD 0 0) (col.getD 0 0) (col.getD 3 0),
       blendChannel (existing.getD 1 0) (col.getD 1 0) (col.getD 3 0),
       blendChannel (existing.getD 2 0) (col.getD 2 0) (col.getD 3 0),
       max (existing.getD 3 0) (col.getD 3 0)]) :=
  ⟨draw_triangle_getPix hlen hx hy, fun _ _ _ => rfl, fun _ _ => rfl⟩

/-- Witness for the amended C5 at the counterexample input. -/
theorem claim5_blend_double_witness :
    (getPix (draw_triangle [3, 3, 3, 0] 1 1
        [((0 : ℤ), (-1 : ℤ)), ((0 : ℤ), (1 : ℤ)), ((1 : ℤ), (0 : ℤ))] [3, 3, 3, 5]) 1 0 0 =
      if triCovered 1 1 [((0 : ℤ), (-1 : ℤ)), ((0 : ℤ), (1 : ℤ)), ((1 : ℤ), (0 : ℤ))]
          (0 : ℕ) (0 : ℕ) then
        blendPixel (getPix [3, 3, 3, 0] 1 0 0) [3, 3, 3, 5]
      else getPix [3, 3, 3, 0] 1 0 0) ∧
    (∀ e c A : ℕ, blendChannel e c A =
      (qtrunc (flRound (flRound ((e : ℚ) * flRound (1 - flRound ((A : ℚ) / 255))) +
        flRound ((c : ℚ) * flRound ((A : ℚ) / 255))))).toNat) ∧
    (∀ existing col : List ℕ, blendPixel existing col =
      [blendChannel (existing.getD 0 0) (col.getD 0 0) (col.getD 3 0),
       blendChannel (existing.getD 1 0) (col.getD 1 0) (col.getD 3 0),
       blendChannel (existing.getD 2 0) (col.getD 2 0) (col.getD 3 0),
       max (existing.getD 3 0) (col.getD 3 0)]) :=
  claim5_blend_double [3, 3, 3, 0] 1 1
    [((0 : ℤ), (-1 : ℤ)), ((0 : ℤ), (1 : ℤ)), ((1 : ℤ), (0 : ℤ))] [3, 3, 3, 5] 0 0
    (by decide) (by decide) (by decide)

/-- Claim C6: a degenerate triangle (minimum vertex y equals maximum vertex
y) leaves the buffer entirely unchanged; `draw_triangle` is total, so the
malformed shape is a silent no-op rather than an error. -/
theorem claim6_degenerate (pixels : List ℕ) (width height : ℕ)
    (p0 p1 p2 : ℤ × ℤ) (color : List ℕ)
    (hdeg : min p0.2 (min p1.2 p2.2) = max p0.2 (max p1.2 p2.2)) :
    draw_triangle pixels width height [p0, p1, p2] color = pixels :=
  draw_triangle_degenerate pixels width height p0 p1 p2 color hdeg

/-- Witness for C6: three vertices on the horizontal line `y = 5`. -/
theorem claim6_degenerate_witness :
    draw_triangle [1, 2, 3, 4] 1 1 [((0 : ℤ), (5 : ℤ)), ((3 : ℤ), (5 : ℤ)),
      ((9 : ℤ), (5 : ℤ))] [9, 9, 9, 9] = [1, 2, 3, 4] :=
  claim6_degenerate [1, 2, 3, 4] 1 1 ((0 : ℤ), (5 : ℤ)) ((3 : ℤ), (5 : ℤ))
    ((9 : ℤ), (5 : ℤ)) [9, 9, 9, 9] (by decide)

/-- Claim C7: a `draw_triangle` call with a fully opaque colour
(`alpha = 255`) writes the new colour's bytes exactly on every pixel it
covers whose existing alpha is 255 — no blending residue. -/
theorem claim7_opaque_overwrite (pixels : List ℕ) (width height : ℕ)
    (points : List (ℤ × ℤ)) (r g b x y : ℕ)
    (hlen : pixels.length = width * height * 4)
    (hx : x < width) (hy : y < height)
    (hr : r ≤ 255) (hg : g ≤ 255) (hb : b ≤ 255)
    (hex : (getPix pixels width x y).getD 3 0 = 255)
    (hcov : triCovered width height points x y) :
    getPix (draw_triangle pixels width height points [r, g, b, 255]) width x y =
      [r, g, b, 255] := by
  rw [draw_triangle_getPix hlen hx hy, if_pos hcov]
  show blendPixel (getPix pixels width x y) [r, g, b, 255] = [r, g, b, 255]
  unfold blendPixel
  simp only [List.getD_cons_zero, List.getD_cons_succ]
  rw [blendChannel_alpha255 _ _ hr, blendChannel_alpha255 _ _ hg,
    blendChannel_alpha255 _ _ hb, hex]
  rfl

/-- Witness for C7 at the covered pixel of the counterexample triangle, over
an opaque background pixel. -/
theorem claim7_opaque_overwrite_witness :
    getPix (draw_triangle [7, 7, 7, 255] 1 1
      [((0 : ℤ), (-1 : ℤ)), ((0 : ℤ), (1 : ℤ)), ((1 : ℤ), (0 : ℤ))]
      [10, 20, 30, 255]) 1 0 0 = [10, 20, 30, 255] :=
  claim7_opaque_overwrite [7, 7, 7, 255] 1 1
    [((0 : ℤ), (-1 : ℤ)), ((0 : ℤ), (1 : ℤ)), ((1 : ℤ), (0 : ℤ))] 10 20 30 0 0
    (by decide) (by decide) (by decide) (by decide) (by decide) (by decide)
    (by decide) triCovered_ctrex

/-- Claim C8: in the composition recipes, the play-arrow triangle draw is
performed exactly when `size ≥ 32` (it belongs to `create_icon`;
`create_recording_icon` never draws a triangle — its `size ≥ 32` detail is
the white indicator circle), and the four corner accent dot draws are
performed exactly when `size ≥ 48`, in both recipes; below the thresholds
the corresponding shapes are absent from the drawing sequence, hence from
the generated buffer. -/
theorem claim8_thresholds (size : ℕ) :
    (hasTriangleOp (iconOps size) = true ↔ 32 ≤ size) ∧
    hasTriangleOp (recordingOps size) = false ∧
    ((iconDotOps size).length = if 48 ≤ size then 4 else 0) ∧
    ((recordingDotOps size).length = if 48 ≤ size then 4 else 0) ∧
    iconOps size = iconBaseOps size ++ iconArrowOps size ++ iconDotOps size ∧
    recordingOps size = recordingBaseOps size ++ recordingIndicatorOps size ++
      recordingDotOps size := by
  refine ⟨?_, ?_, ?_, ?_, rfl, rfl⟩
  · by_cases h32 : 32 ≤ size <;> by_cases h48 : 48 ≤ size <;>
      simp [hasTriangleOp, iconOps, iconBaseOps, iconArrowOps, iconDotOps,
        isTriangleOp, h32, h48]
  · by_cases h32 : 32 ≤ size <;> by_cases h48 : 48 ≤ size <;>
      simp [hasTriangleOp, recordingOps, recordingBaseOps, recordingIndicatorOps,
        recordingDotOps, isTriangleOp, h32, h48]
  · by_cases h48 : 48 ≤ size <;> simp [iconDotOps, h48]
  · by_cases h48 : 48 ≤ size <;> simp [recordingDotOps, h48]

/-- Claim C9: the generator is deterministic — `create_icon` and
`create_recording_icon` are pure functions of the size (and of the
compressor), so two runs with the same parameters produce byte-identical
PNG output.  In this embedding all state is explicit; the source reads no
randomness, time, or environment, which is what makes this functional
translation possible. -/
theorem claim9_deterministic (compress : List ℕ → List ℕ) (size : ℕ) :
    create_icon compress size = create_icon compress size ∧
    create_recording_icon compress size = create_recording_icon compress size :=
  ⟨rfl, rfl⟩

/-- Claim C10: `draw_circle` and `draw_triangle` preserve the buffer length
(`width*height*4` bytes — every write replaces exactly as many bytes as it
removes) and keep every byte in `0..255`: circle writes copy colour bytes,
and blended channels are rounded-and-truncated convex combinations of byte
values, bounded by `blendChannel_le`. -/
theorem claim10_invariants (pixels : List ℕ) (width height : ℕ)
    (cx cy radius : ℤ) (points : List (ℤ × ℤ)) (color : List ℕ)
    (hlen : pixels.length = width * height * 4) (hcol4 : color.length = 4)
    (hpx : ∀ b ∈ pixels, b ≤ 255) (hcolb : ∀ b ∈ color, b ≤ 255) :
    ((draw_circle pixels width height cx cy radius color).length =
        width * height * 4 ∧
      ∀ b ∈ draw_circle pixels width height cx cy radius color, b ≤ 255) ∧
    ((draw_triangle pixels width height points color).length =
        width * height * 4 ∧
      ∀ b ∈ draw_triangle pixels width height points color, b ≤ 255) :=
  ⟨⟨draw_circle_length hlen hcol4, draw_circle_bytes hpx hcolb⟩,
   ⟨draw_triangle_length hlen, draw_triangle_bytes hpx hcolb⟩⟩

/-- Witness for C10 on a 1×1 buffer with an overlapping circle and triangle. -/
theorem claim10_invariants_witness :
    ((draw_circle [3, 3, 3, 0] 1 1 0 0 2 [255, 255, 255, 176]).length = 1 * 1 * 4 ∧
      ∀ b ∈ draw_circle [3, 3, 3, 0] 1 1 0 0 2 [255, 255, 255, 176], b ≤ 255) ∧
    ((draw_triangle [3, 3, 3, 0] 1 1 [((0 : ℤ), (-1 : ℤ)), ((0 : ℤ), (1 : ℤ)),
        ((1 : ℤ), (0 : ℤ))] [255, 255, 255, 176]).length = 1 * 1 * 4 ∧
      ∀ b ∈ draw_triangle [3, 3, 3, 0] 1 1 [((0 : ℤ), (-1 : ℤ)), ((0 : ℤ), (1 : ℤ)),
        ((1 : ℤ), (0 : ℤ))] [255, 255, 255, 176], b ≤ 255) :=
  claim10_invariants [3, 3, 3, 0] 1 1 0 0 2
    [((0 : ℤ), (-1 : ℤ)), ((0 : ℤ), (1 : ℤ)), ((1 : ℤ), (0 : ℤ))]
    [255, 255, 255, 176] (by decide) (by decide) (by decide) (by decide)
